import Mathlib

/-!
Verification of the 3D ROI max-pooling operator and its gradient
(src/src/caffe/layers/roi_pooling_layer.cu).

The two CUDA kernels, ROIPoolForward and ROIPoolBackward, are embedded as pure
functions over exact rationals: one invocation of the embedded function
computes the value written by one kernel thread (one pooled output element for
the forward pass, one input gradient element for the backward pass).  Device
arrays become total functions from flat indices to values; the float type
Dtype becomes the rationals, with floor, ceil and round modelled exactly.
-/

set_option maxHeartbeats 1000000

namespace RoiPool

/-- Largest finite value of the single precision floating point type, as an
exact rational: FLT_MAX = (2^24 - 1) * 2^104.  The forward kernel initializes
the running maximum of a nonempty pooling bin to -FLT_MAX (line 66). -/
def fltMax : ℚ := (2 ^ 24 - 1) * 2 ^ 104

/-- C conversion from a floating value to int: truncation toward zero
(used on line 33 and line 123 to read the batch index field of a region). -/
def truncC (x : ℚ) : ℤ := if x < 0 then ⌈x⌉ else ⌊x⌋

/-- The C round function: round to the nearest integer, halves away from
zero (used on lines 34-39 and 129-134 to scale region boundaries). -/
def roundC (x : ℚ) : ℤ := if x < 0 then -⌊-x + 1 / 2⌋ else ⌊x + 1 / 2⌋

/-- min-max clamp of an integer to the interval [lo, hi], the
`min(max(x, lo), hi)` pattern used on lines 57-62 and 167-172. -/
def clampI (x lo hi : ℤ) : ℤ := min (max x lo) hi

/-- The integers a, a+1, ..., b-1 (empty when b ≤ a): the index sequence of a
C `for` loop running from a (inclusive) to b (exclusive). -/
def intRange (a b : ℤ) : List ℤ := (List.range (b - a).toNat).map (fun i : ℕ => a + (i : ℤ))

/-- The scalar shape and scale parameters passed to both kernels. -/
structure Params where
  channels : ℕ
  length : ℕ
  height : ℕ
  width : ℕ
  pooled_length : ℕ
  pooled_height : ℕ
  pooled_width : ℕ
  spatial_scale_xy : ℚ
  spatial_scale_z : ℚ

/-- Batch index field of region n: `bottom_rois[n*7 + 0]` cast to int. -/
def roi_batch_ind (rois : ℕ → ℚ) (n : ℕ) : ℤ := truncC (rois (n * 7))

/-- Scaled, rounded region boundary: `round(bottom_rois[n*7+1] * spatial_scale_xy)`. -/
def roi_start_w (p : Params) (rois : ℕ → ℚ) (n : ℕ) : ℤ :=
  roundC (rois (n * 7 + 1) * p.spatial_scale_xy)

/-- Scaled, rounded region boundary: `round(bottom_rois[n*7+2] * spatial_scale_xy)`. -/
def roi_start_h (p : Params) (rois : ℕ → ℚ) (n : ℕ) : ℤ :=
  roundC (rois (n * 7 + 2) * p.spatial_scale_xy)

/-- Scaled, rounded region boundary: `round(bottom_rois[n*7+3] * spatial_scale_z)`. -/
def roi_start_l (p : Params) (rois : ℕ → ℚ) (n : ℕ) : ℤ :=
  roundC (rois (n * 7 + 3) * p.spatial_scale_z)

/-- Scaled, rounded region boundary: `round(bottom_rois[n*7+4] * spatial_scale_xy)`. -/
def roi_end_w (p : Params) (rois : ℕ → ℚ) (n : ℕ) : ℤ :=
  roundC (rois (n * 7 + 4) * p.spatial_scale_xy)

/-- Scaled, rounded region boundary: `round(bottom_rois[n*7+5] * spatial_scale_xy)`. -/
def roi_end_h (p : Params) (rois : ℕ → ℚ) (n : ℕ) : ℤ :=
  roundC (rois (n * 7 + 5) * p.spatial_scale_xy)

/-- Scaled, rounded region boundary: `round(bottom_rois[n*7+6] * spatial_scale_z)`. -/
def roi_end_l (p : Params) (rois : ℕ → ℚ) (n : ℕ) : ℤ :=
  roundC (rois (n * 7 + 6) * p.spatial_scale_z)

/-- Region extent on one axis, with malformed regions forced to extent 1:
`max(end - start + 1, 1)` (lines 42-44, 152-154). -/
def roiExtent (s e : ℤ) : ℤ := max (e - s + 1) 1

/-- Adaptive bin size on one axis: extent divided by pooled extent
(real valued division, lines 45-47, 156-158). -/
def binSize (extent : ℤ) (pooled : ℕ) : ℚ := (extent : ℚ) / (pooled : ℚ)

/-- `bin_size_w` of region n, as computed by both kernels. -/
def bin_size_w (p : Params) (rois : ℕ → ℚ) (n : ℕ) : ℚ :=
  binSize (roiExtent (roi_start_w p rois n) (roi_end_w p rois n)) p.pooled_width

/-- `bin_size_h` of region n, as computed by both kernels. -/
def bin_size_h (p : Params) (rois : ℕ → ℚ) (n : ℕ) : ℚ :=
  binSize (roiExtent (roi_start_h p rois n) (roi_end_h p rois n)) p.pooled_height

/-- `bin_size_l` of region n, as computed by both kernels. -/
def bin_size_l (p : Params) (rois : ℕ → ℚ) (n : ℕ) : ℚ :=
  binSize (roiExtent (roi_start_l p rois n) (roi_end_l p rois n)) p.pooled_length

/-- Unclamped bin lower boundary `floor(pIdx * bin_size)` (lines 49-51). -/
def binStartRaw (bs : ℚ) (pIdx : ℕ) : ℤ := ⌊(pIdx : ℚ) * bs⌋

/-- Unclamped bin upper boundary `ceil((pIdx + 1) * bin_size)` (lines 52-54). -/
def binEndRaw (bs : ℚ) (pIdx : ℕ) : ℤ := ⌈((pIdx : ℚ) + 1) * bs⌉

/-- Forward bin box lower bound on the width axis after adding the region
offset and clamping to the volume (line 61). -/
def fwdWStart (p : Params) (rois : ℕ → ℚ) (n pw : ℕ) : ℤ :=
  clampI (binStartRaw (bin_size_w p rois n) pw + roi_start_w p rois n) 0 p.width

/-- Forward bin box upper bound on the width axis (line 62). -/
def fwdWEnd (p : Params) (rois : ℕ → ℚ) (n pw : ℕ) : ℤ :=
  clampI (binEndRaw (bin_size_w p rois n) pw + roi_start_w p rois n) 0 p.width

/-- Forward bin box lower bound on the height axis (line 59). -/
def fwdHStart (p : Params) (rois : ℕ → ℚ) (n ph : ℕ) : ℤ :=
  clampI (binStartRaw (bin_size_h p rois n) ph + roi_start_h p rois n) 0 p.height

/-- Forward bin box upper bound on the height axis (line 60). -/
def fwdHEnd (p : Params) (rois : ℕ → ℚ) (n ph : ℕ) : ℤ :=
  clampI (binEndRaw (bin_size_h p rois n) ph + roi_start_h p rois n) 0 p.height

/-- Forward bin box lower bound on the depth axis (line 57). -/
def fwdLStart (p : Params) (rois : ℕ → ℚ) (n pl : ℕ) : ℤ :=
  clampI (binStartRaw (bin_size_l p rois n) pl + roi_start_l p rois n) 0 p.length

/-- Forward bin box upper bound on the depth axis (line 58). -/
def fwdLEnd (p : Params) (rois : ℕ → ℚ) (n pl : ℕ) : ℤ :=
  clampI (binEndRaw (bin_size_l p rois n) pl + roi_start_l p rois n) 0 p.length

/-- Decoded output coordinate `pw = index % pooled_width` (line 26). -/
def outPW (p : Params) (index : ℕ) : ℕ := index % p.pooled_width

/-- Decoded output coordinate `ph` (line 27). -/
def outPH (p : Params) (index : ℕ) : ℕ := index / p.pooled_width % p.pooled_height

/-- Decoded output coordinate `pl` (line 28). -/
def outPL (p : Params) (index : ℕ) : ℕ :=
  index / p.pooled_width / p.pooled_height % p.pooled_length

/-- Decoded output channel `c` (line 29). -/
def outC (p : Params) (index : ℕ) : ℕ :=
  index / p.pooled_width / p.pooled_height / p.pooled_length % p.channels

/-- Decoded output region index `n` (line 30). -/
def outN (p : Params) (index : ℕ) : ℕ :=
  index / p.pooled_width / p.pooled_height / p.pooled_length / p.channels

/-- Flat coordinate encoding `l * height * width + h * width + w` shared by
both kernels (lines 73, 177). -/
def encode3 (height width : ℕ) (l h w : ℤ) : ℤ := l * (height * width) + h * width + w

/-- Offset of the (batch, channel) slice of the feature volume:
`(roi_batch_ind * channels + c) * length * height * width` (line 69). -/
def dataOffset (p : Params) (rois : ℕ → ℚ) (n c : ℕ) : ℤ :=
  (roi_batch_ind rois n * p.channels + c) * (p.length * p.height * p.width)

/-- The flat coordinates scanned by the forward triple loop (lines 70-80), in
iteration order: depth outer, then height, then width. -/
def boxList (height width : ℕ) (ls le hs he ws we : ℤ) : List ℤ :=
  (intRange ls le).flatMap fun l =>
    (intRange hs he).flatMap fun h =>
      (intRange ws we).map fun w => encode3 height width l h w

/-- The scan box of the forward pass for output bin (n, pl, ph, pw). -/
def fwdBox (p : Params) (rois : ℕ → ℚ) (n pl ph pw : ℕ) : List ℤ :=
  boxList p.height p.width (fwdLStart p rois n pl) (fwdLEnd p rois n pl)
    (fwdHStart p rois n ph) (fwdHEnd p rois n ph)
    (fwdWStart p rois n pw) (fwdWEnd p rois n pw)

/-- The emptiness test of line 63: a bin is empty when its clamped box has
no element on some axis. -/
def fwdIsEmpty (p : Params) (rois : ℕ → ℚ) (n pl ph pw : ℕ) : Prop :=
  fwdLEnd p rois n pl ≤ fwdLStart p rois n pl ∨
    fwdHEnd p rois n ph ≤ fwdHStart p rois n ph ∨
      fwdWEnd p rois n pw ≤ fwdWStart p rois n pw

instance (p : Params) (rois : ℕ → ℚ) (n pl ph pw : ℕ) :
    Decidable (fwdIsEmpty p rois n pl ph pw) := by
  unfold fwdIsEmpty; infer_instance

/-- The running maximum scan of lines 70-80: state is the pair
(maxval, maxidx); an element updates the state exactly when its value is
strictly greater than the current maximum. -/
def runMax (f : ℤ → ℚ) : List ℤ → ℚ × ℤ → ℚ × ℤ
  | [], acc => acc
  | x :: xs, acc => runMax f xs (if f x > acc.1 then (f x, x) else acc)

/-- One thread of the ROIPoolForward kernel (lines 17-84): returns the pair
(top_data[index], argmax_data[index]). -/
def ROIPoolForward (p : Params) (bottom_data : ℤ → ℚ) (bottom_rois : ℕ → ℚ)
    (index : ℕ) : ℚ × ℤ :=
  runMax (fun i => bottom_data (dataOffset p bottom_rois (outN p index) (outC p index) + i))
    (fwdBox p bottom_rois (outN p index) (outPL p index) (outPH p index) (outPW p index))
    ((if fwdIsEmpty p bottom_rois (outN p index) (outPL p index) (outPH p index) (outPW p index)
        then (0 : ℚ) else -fltMax), -1)

/-- Decoded input coordinate `w = index % width` (line 113). -/
def inW (p : Params) (index : ℕ) : ℕ := index % p.width

/-- Decoded input coordinate `h` (line 114). -/
def inH (p : Params) (index : ℕ) : ℕ := index / p.width % p.height

/-- Decoded input coordinate `l` (line 115). -/
def inL (p : Params) (index : ℕ) : ℕ := index / p.width / p.height % p.length

/-- Decoded input channel `c` (line 116). -/
def inC (p : Params) (index : ℕ) : ℕ := index / p.width / p.height / p.length % p.channels

/-- Decoded input batch slot `n` (line 117). -/
def inN (p : Params) (index : ℕ) : ℕ :=
  index / p.width / p.height / p.length / p.channels

/-- The inclusive containment test of lines 137-139: region roi_n contains
the input coordinate (w, h, l) on every axis. -/
def inRoi (p : Params) (rois : ℕ → ℚ) (roi_n : ℕ) (w h l : ℤ) : Prop :=
  roi_start_w p rois roi_n ≤ w ∧ w ≤ roi_end_w p rois roi_n ∧
    roi_start_h p rois roi_n ≤ h ∧ h ≤ roi_end_h p rois roi_n ∧
      roi_start_l p rois roi_n ≤ l ∧ l ≤ roi_end_l p rois roi_n

instance (p : Params) (rois : ℕ → ℚ) (roi_n : ℕ) (w h l : ℤ) :
    Decidable (inRoi p rois roi_n w h l) := by
  unfold inRoi; infer_instance

/-- Backward candidate bin range lower bound on the depth axis:
`min(max(floor((l - roi_start_l) / bin_size_l), 0), pooled_length)`
(lines 160, 167). -/
def bwdPLStart (p : Params) (rois : ℕ → ℚ) (roi_n : ℕ) (l : ℤ) : ℤ :=
  clampI ⌊((l - roi_start_l p rois roi_n : ℤ) : ℚ) / bin_size_l p rois roi_n⌋ 0 p.pooled_length

/-- Backward candidate bin range upper bound on the depth axis (lines 161, 168). -/
def bwdPLEnd (p : Params) (rois : ℕ → ℚ) (roi_n : ℕ) (l : ℤ) : ℤ :=
  clampI ⌈((l - roi_start_l p rois roi_n + 1 : ℤ) : ℚ) / bin_size_l p rois roi_n⌉ 0 p.pooled_length

/-- Backward candidate bin range lower bound on the height axis (lines 162, 169). -/
def bwdPHStart (p : Params) (rois : ℕ → ℚ) (roi_n : ℕ) (h : ℤ) : ℤ :=
  clampI ⌊((h - roi_start_h p rois roi_n : ℤ) : ℚ) / bin_size_h p rois roi_n⌋ 0 p.pooled_height

/-- Backward candidate bin range upper bound on the height axis (lines 163, 170). -/
def bwdPHEnd (p : Params) (rois : ℕ → ℚ) (roi_n : ℕ) (h : ℤ) : ℤ :=
  clampI ⌈((h - roi_start_h p rois roi_n + 1 : ℤ) : ℚ) / bin_size_h p rois roi_n⌉ 0 p.pooled_height

/-- Backward candidate bin range lower bound on the width axis (lines 164, 171). -/
def bwdPWStart (p : Params) (rois : ℕ → ℚ) (roi_n : ℕ) (w : ℤ) : ℤ :=
  clampI ⌊((w - roi_start_w p rois roi_n : ℤ) : ℚ) / bin_size_w p rois roi_n⌋ 0 p.pooled_width

/-- Backward candidate bin range upper bound on the width axis (lines 165, 172). -/
def bwdPWEnd (p : Params) (rois : ℕ → ℚ) (roi_n : ℕ) (w : ℤ) : ℤ :=
  clampI ⌈((w - roi_start_w p rois roi_n + 1 : ℤ) : ℚ) / bin_size_w p rois roi_n⌉ 0 p.pooled_width

/-- Offset of the (region, channel) slice of the pooled arrays:
`(roi_n * channels + c) * pooled_length * pooled_height * pooled_width`
(line 144). -/
def poolOffset (p : Params) (roi_n c : ℕ) : ℤ :=
  ((roi_n * p.channels + c) * (p.pooled_length * p.pooled_height * p.pooled_width) : ℕ)

/-- Flat offset of pooled bin (pl, ph, pw) within a (region, channel) slice:
`pl * pooled_height * pooled_width + ph * pooled_width + pw` (lines 177-178). -/
def poolEnc (p : Params) (pl ph pw : ℤ) : ℤ :=
  pl * (p.pooled_height * p.pooled_width) + ph * p.pooled_width + pw

/-- One thread of the ROIPoolBackward kernel (lines 104-186): the value
written to bottom_diff[index].  A `continue` of the source leaves the
accumulator unchanged, and the innermost conditional accumulates the output
gradient of every candidate bin whose recorded argmax equals the flat
encoding of this thread's input coordinate. -/
def ROIPoolBackward (p : Params) (top_diff : ℤ → ℚ) (argmax_data : ℤ → ℤ)
    (num_rois : ℕ) (rois : ℕ → ℚ) (index : ℕ) : ℚ :=
  (List.range num_rois).foldl (fun gradient roi_n =>
    if (inN p index : ℤ) ≠ roi_batch_ind rois roi_n then gradient
    else if ¬ inRoi p rois roi_n (inW p index) (inH p index) (inL p index) then gradient
    else
      (intRange (bwdPLStart p rois roi_n (inL p index))
          (bwdPLEnd p rois roi_n (inL p index))).foldl (fun g pl =>
        (intRange (bwdPHStart p rois roi_n (inH p index))
            (bwdPHEnd p rois roi_n (inH p index))).foldl (fun g ph =>
          (intRange (bwdPWStart p rois roi_n (inW p index))
              (bwdPWEnd p rois roi_n (inW p index))).foldl (fun g pw =>
            if argmax_data (poolOffset p roi_n (inC p index) + poolEnc p pl ph pw) =
                encode3 p.height p.width (inL p index) (inH p index) (inW p index)
            then g + top_diff (poolOffset p roi_n (inC p index) + poolEnc p pl ph pw)
            else g) g) g) gradient) 0

/-- The total contribution that region roi_n adds to the backward accumulator
of the input coordinate (n, c, l, h, w): the loop body of lines 121-183
written as a sum over the candidate bin range. -/
def roiContrib (p : Params) (top_diff : ℤ → ℚ) (argmax_data : ℤ → ℤ) (rois : ℕ → ℚ)
    (n c l h w : ℕ) (roi_n : ℕ) : ℚ :=
  if (n : ℤ) ≠ roi_batch_ind rois roi_n then 0
  else if ¬ inRoi p rois roi_n w h l then 0
  else
    ∑ pl ∈ Finset.Ico (bwdPLStart p rois roi_n l) (bwdPLEnd p rois roi_n l),
      ∑ ph ∈ Finset.Ico (bwdPHStart p rois roi_n h) (bwdPHEnd p rois roi_n h),
        ∑ pw ∈ Finset.Ico (bwdPWStart p rois roi_n w) (bwdPWEnd p rois roi_n w),
          if argmax_data (poolOffset p roi_n c + poolEnc p pl ph pw) =
              encode3 p.height p.width l h w
          then top_diff (poolOffset p roi_n c + poolEnc p pl ph pw)
          else 0

/-- The input gradient buffer after Backward_gpu (lines 188-205): the buffer
of count elements is zero filled first (line 198), then the kernel writes
each index below count exactly once. -/
def backwardDiff (p : Params) (top_diff : ℤ → ℚ) (argmax_data : ℤ → ℤ)
    (num_rois : ℕ) (rois : ℕ → ℚ) (count index : ℕ) : ℚ :=
  if index < count then ROIPoolBackward p top_diff argmax_data num_rois rois index else 0

/-- The input coordinate index lies in the support of region roi_n: its
batch slot matches and it passes the inclusive containment test. -/
def supportPred (p : Params) (rois : ℕ → ℚ) (roi_n : ℕ) (index : ℕ) : Prop :=
  (inN p index : ℤ) = roi_batch_ind rois roi_n ∧
    inRoi p rois roi_n (inW p index) (inH p index) (inL p index)

instance (p : Params) (rois : ℕ → ℚ) (roi_n index : ℕ) :
    Decidable (supportPred p rois roi_n index) := by
  unfold supportPred; infer_instance

/-! ### Basic facts about the loop index ranges and the scan -/

theorem mem_intRange {a b x : ℤ} : x ∈ intRange a b ↔ a ≤ x ∧ x < b := by
  simp only [intRange, List.mem_map, List.mem_range]
  constructor
  · rintro ⟨i, hi, rfl⟩; omega
  · intro h; exact ⟨(x - a).toNat, by omega, by omega⟩

theorem intRange_nodup (a b : ℤ) : (intRange a b).Nodup :=
  (List.nodup_range _).map (by intro i j h; simp at h; exact h)

theorem listSum_range (g : ℕ → ℚ) (n : ℕ) :
    ((List.range n).map g).sum = ∑ i ∈ Finset.range n, g i := by
  induction n with
  | zero => simp
  | succ n ih =>
    rw [List.range_succ, List.map_append, List.sum_append, Finset.sum_range_succ, ih]
    simp

theorem sum_range_toNat (f : ℤ → ℚ) (a b : ℤ) :
    ∑ i ∈ Finset.range (b - a).toNat, f (a + (i : ℤ)) = ∑ j ∈ Finset.Ico a b, f j := by
  refine Finset.sum_nbij' (fun i => a + (i : ℤ)) (fun j => (j - a).toNat) ?_ ?_ ?_ ?_ ?_
  · intro x hx
    simp only [Finset.mem_range] at hx
    simp only [Finset.mem_Ico]
    omega
  · intro x hx
    simp only [Finset.mem_Ico] at hx
    simp only [Finset.mem_range]
    omega
  · intro x _
    simp only
    omega
  · intro x hx
    simp only [Finset.mem_Ico] at hx
    simp only
    omega
  · intro x _
    rfl

theorem listSum_intRange (f : ℤ → ℚ) (a b : ℤ) :
    ((intRange a b).map f).sum = ∑ j ∈ Finset.Ico a b, f j := by
  unfold intRange
  rw [List.map_map, listSum_range]
  exact sum_range_toNat f a b

theorem foldl_step_add {α : Type} (step : ℚ → α → ℚ) (δ : α → ℚ)
    (hs : ∀ g x, step g x = g + δ x) :
    ∀ (l : List α) (g : ℚ), l.foldl step g = g + (l.map δ).sum := by
  intro l
  induction l with
  | nil => intro g; simp
  | cons x xs ih =>
    intro g
    simp only [List.foldl_cons, List.map_cons, List.sum_cons]
    rw [hs, ih, add_assoc]

theorem runMax_fst (f : ℤ → ℚ) :
    ∀ (l : List ℤ) (acc : ℚ × ℤ),
      (runMax f l acc).1 = l.foldl (fun v x => max v (f x)) acc.1 := by
  intro l
  induction l with
  | nil => intro acc; rfl
  | cons x xs ih =>
    intro acc
    simp only [runMax, List.foldl_cons]
    rw [ih]
    have : (if f x > acc.1 then (f x, x) else acc).1 = max acc.1 (f x) := by
      by_cases h : f x > acc.1
      · rw [if_pos h]; exact (max_eq_right h.le).symm
      · rw [if_neg h]; exact (max_eq_left (not_lt.mp h)).symm
    rw [this]

theorem runMax_cases (f : ℤ → ℚ) :
    ∀ (l : List ℤ) (acc : ℚ × ℤ),
      runMax f l acc = acc ∨ ∃ x ∈ l, runMax f l acc = (f x, x) := by
  intro l
  induction l with
  | nil => intro acc; exact Or.inl rfl
  | cons x xs ih =>
    intro acc
    simp only [runMax]
    by_cases h : f x > acc.1
    · rw [if_pos h]
      rcases ih (f x, x) with h1 | ⟨y, hy, h2⟩
      · exact Or.inr ⟨x, List.mem_cons_self x xs, h1⟩
      · exact Or.inr ⟨y, List.mem_cons_of_mem _ hy, h2⟩
    · rw [if_neg h]
      rcases ih acc with h1 | ⟨y, hy, h2⟩
      · exact Or.inl h1
      · exact Or.inr ⟨y, List.mem_cons_of_mem _ hy, h2⟩

theorem le_foldl_max (f : ℤ → ℚ) :
    ∀ (l : List ℤ) (v : ℚ), v ≤ l.foldl (fun u x => max u (f x)) v := by
  intro l
  induction l with
  | nil => intro v; simp
  | cons x xs ih =>
    intro v
    simp only [List.foldl_cons]
    exact le_trans (le_max_left _ _) (ih _)

theorem mem_le_foldl_max (f : ℤ → ℚ) :
    ∀ (l : List ℤ) (v : ℚ) (x : ℤ), x ∈ l → f x ≤ l.foldl (fun u y => max u (f y)) v := by
  intro l
  induction l with
  | nil => intro v x hx; cases hx
  | cons y ys ih =>
    intro v x hx
    simp only [List.foldl_cons]
    rcases List.mem_cons.mp hx with rfl | hx
    · exact le_trans (le_max_right _ _) (le_foldl_max f ys _)
    · exact ih _ x hx

theorem runMax_first (f : ℤ → ℚ) :
    ∀ (l : List ℤ) (v0 : ℚ) (i0 : ℤ),
      ((runMax f l (v0, i0)).2 = i0 ∧ (runMax f l (v0, i0)).1 = v0) ∨
        ∃ l1 l2, l = l1 ++ (runMax f l (v0, i0)).2 :: l2 ∧
          (runMax f l (v0, i0)).1 = f (runMax f l (v0, i0)).2 ∧
          v0 < f (runMax f l (v0, i0)).2 ∧
          ∀ y ∈ l1, f y < f (runMax f l (v0, i0)).2 := by
  intro l
  induction l with
  | nil => intro v0 i0; exact Or.inl ⟨rfl, rfl⟩
  | cons x xs ih =>
    intro v0 i0
    by_cases h : f x > v0
    · have hrw : runMax f (x :: xs) (v0, i0) = runMax f xs (f x, x) := by
        simp only [runMax]; rw [if_pos h]
      rw [hrw]
      rcases ih (f x) x with ⟨h2, h1⟩ | ⟨l1, l2, hsplit, he, hgt, hall⟩
      · refine Or.inr ⟨[], xs, ?_, ?_, ?_, ?_⟩
        · rw [h2]; rfl
        · rw [h1, h2]
        · rw [h2]; exact h
        · intro y hy; cases hy
      · refine Or.inr ⟨x :: l1, l2, ?_, he, lt_trans h hgt, ?_⟩
        · rw [List.cons_append, ← hsplit]
        · intro y hy
          rcases List.mem_cons.mp hy with rfl | hy
          · exact hgt
          · exact hall y hy
    · have hrw : runMax f (x :: xs) (v0, i0) = runMax f xs (v0, i0) := by
        simp only [runMax]; rw [if_neg h]
      rw [hrw]
      rcases ih v0 i0 with hA | ⟨l1, l2, hsplit, he, hgt, hall⟩
      · exact Or.inl hA
      · refine Or.inr ⟨x :: l1, l2, ?_, he, hgt, ?_⟩
        · rw [List.cons_append, ← hsplit]
        · intro y hy
          rcases List.mem_cons.mp hy with rfl | hy
          · exact lt_of_le_of_lt (not_lt.mp h) hgt
          · exact hall y hy

theorem decode_mod_div {A q r : ℕ} (h : r < A) :
    (q * A + r) % A = r ∧ (q * A + r) / A = q := by
  have hA : 0 < A := by omega
  constructor
  · rw [Nat.mul_add_mod']
    exact Nat.mod_eq_of_lt h
  · rw [mul_comm, Nat.mul_add_div hA, Nat.div_eq_of_lt h, add_zero]

theorem triple_foldl_sum (a1 b1 a2 b2 a3 b3 : ℤ) (P : ℤ → ℤ → ℤ → Prop)
    [inst : ∀ a b c, Decidable (P a b c)] (t : ℤ → ℤ → ℤ → ℚ) (g : ℚ) :
    (intRange a1 b1).foldl (fun g a => (intRange a2 b2).foldl (fun g b =>
        (intRange a3 b3).foldl (fun g c => if P a b c then g + t a b c else g) g) g) g =
      g + ∑ a ∈ Finset.Ico a1 b1, ∑ b ∈ Finset.Ico a2 b2, ∑ c ∈ Finset.Ico a3 b3,
        if P a b c then t a b c else 0 := by
  have h3 : ∀ (a b : ℤ) (g : ℚ),
      (intRange a3 b3).foldl (fun g c => if P a b c then g + t a b c else g) g =
        g + ∑ c ∈ Finset.Ico a3 b3, if P a b c then t a b c else 0 := by
    intro a b g
    rw [foldl_step_add (fun g c => if P a b c then g + t a b c else g)
        (fun c => if P a b c then t a b c else 0)
        (by intro u x; by_cases hc : P a b x <;> simp [hc]), listSum_intRange]
  have h2 : ∀ (a : ℤ) (g : ℚ),
      (intRange a2 b2).foldl (fun g b =>
          (intRange a3 b3).foldl (fun g c => if P a b c then g + t a b c else g) g) g =
        g + ∑ b ∈ Finset.Ico a2 b2, ∑ c ∈ Finset.Ico a3 b3,
          if P a b c then t a b c else 0 := by
    intro a g
    rw [foldl_step_add _
        (fun b => ∑ c ∈ Finset.Ico a3 b3, if P a b c then t a b c else 0)
        (fun u x => h3 a x u), listSum_intRange]
  rw [foldl_step_add _
      (fun a => ∑ b ∈ Finset.Ico a2 b2, ∑ c ∈ Finset.Ico a3 b3,
        if P a b c then t a b c else 0)
      (fun u x => h2 x u), listSum_intRange]

theorem backward_eq_sum (p : Params) (top_diff : ℤ → ℚ) (argmax_data : ℤ → ℤ)
    (num_rois : ℕ) (rois : ℕ → ℚ) (index : ℕ) :
    ROIPoolBackward p top_diff argmax_data num_rois rois index =
      ∑ roi_n ∈ Finset.range num_rois,
        roiContrib p top_diff argmax_data rois (inN p index) (inC p index)
          (inL p index) (inH p index) (inW p index) roi_n := by
  unfold ROIPoolBackward
  rw [foldl_step_add _
      (fun roi_n => roiContrib p top_diff argmax_data rois (inN p index) (inC p index)
        (inL p index) (inH p index) (inW p index) roi_n) ?_ (List.range num_rois) 0]
  · rw [zero_add, listSum_range]
  · intro g roi_n
    by_cases hb : (inN p index : ℤ) ≠ roi_batch_ind rois roi_n
    · rw [if_pos hb]
      unfold roiContrib
      simp only
      rw [if_pos hb, add_zero]
    · rw [if_neg hb]
      by_cases hr : ¬ inRoi p rois roi_n (inW p index) (inH p index) (inL p index)
      · rw [if_pos hr]
        unfold roiContrib
        simp only
        rw [if_neg hb, if_pos hr, add_zero]
      · rw [if_neg hr]
        unfold roiContrib
        simp only
        rw [if_neg hb, if_neg hr]
        exact triple_foldl_sum _ _ _ _ _ _
          (fun pl ph pw => argmax_data (poolOffset p roi_n (inC p index) + poolEnc p pl ph pw) =
            encode3 p.height p.width (inL p index) (inH p index) (inW p index))
          (fun pl ph pw => top_diff (poolOffset p roi_n (inC p index) + poolEnc p pl ph pw)) g

theorem clampI_le_hi (x lo hi : ℤ) : clampI x lo hi ≤ hi := min_le_right _ _

theorem lo_le_clampI {lo hi : ℤ} (x : ℤ) (h : lo ≤ hi) : lo ≤ clampI x lo hi :=
  le_min (le_max_right x lo) h

/-! ### Arithmetic facts about bin boundaries, one axis at a time -/

theorem roiExtent_pos (s e : ℤ) : 0 < roiExtent s e :=
  lt_of_lt_of_le one_pos (le_max_right _ _)

theorem binSize_nonneg (s e : ℤ) (pooled : ℕ) : 0 ≤ binSize (roiExtent s e) pooled :=
  div_nonneg (by exact_mod_cast (roiExtent_pos s e).le) (Nat.cast_nonneg _)

theorem binSize_pos (s e : ℤ) {pooled : ℕ} (hp : 0 < pooled) :
    0 < binSize (roiExtent s e) pooled :=
  div_pos (by exact_mod_cast roiExtent_pos s e) (by exact_mod_cast hp)

theorem binStartRaw_nonneg {bs : ℚ} (hbs : 0 ≤ bs) (pIdx : ℕ) : 0 ≤ binStartRaw bs pIdx :=
  Int.floor_nonneg.mpr (mul_nonneg (Nat.cast_nonneg _) hbs)

theorem binEndRaw_le_extent (s e : ℤ) {pooled pIdx : ℕ} (hp : pIdx < pooled) :
    binEndRaw (binSize (roiExtent s e) pooled) pIdx ≤ roiExtent s e := by
  have hpooled : (0 : ℚ) < pooled := by
    exact_mod_cast lt_of_le_of_lt (Nat.zero_le _) hp
  have hE : (0 : ℚ) ≤ (roiExtent s e : ℚ) := by exact_mod_cast (roiExtent_pos s e).le
  rw [binEndRaw, Int.ceil_le, binSize]
  have hp1 : ((pIdx : ℚ) + 1) ≤ (pooled : ℚ) := by exact_mod_cast Nat.succ_le_of_lt hp
  calc ((pIdx : ℚ) + 1) * ((roiExtent s e : ℚ) / (pooled : ℚ))
      ≤ (pooled : ℚ) * ((roiExtent s e : ℚ) / (pooled : ℚ)) :=
        mul_le_mul_of_nonneg_right hp1 (div_nonneg hE hpooled.le)
    _ = (roiExtent s e : ℚ) := by
        rw [mul_comm, div_mul_cancel₀ _ (ne_of_gt hpooled)]

theorem binStartRaw_lt_binEndRaw {bs : ℚ} (hbs : 0 < bs) (pIdx : ℕ) :
    binStartRaw bs pIdx < binEndRaw bs pIdx := by
  have h1 : ((pIdx : ℚ)) * bs < ((pIdx : ℚ) + 1) * bs :=
    mul_lt_mul_of_pos_right (lt_add_one _) hbs
  have h2 : ((binStartRaw bs pIdx : ℤ) : ℚ) < ((binEndRaw bs pIdx : ℤ) : ℚ) := by
    unfold binStartRaw binEndRaw
    have ha := Int.floor_le ((pIdx : ℚ) * bs)
    have hb := Int.le_ceil (((pIdx : ℚ) + 1) * bs)
    linarith
  exact_mod_cast h2

theorem binEndRaw_pos {bs : ℚ} (hbs : 0 < bs) (pIdx : ℕ) : 1 ≤ binEndRaw bs pIdx := by
  have : 0 < binEndRaw bs pIdx := by
    rw [binEndRaw]
    exact Int.ceil_pos.mpr (mul_pos (by positivity) hbs)
  omega

/-- If an integer coordinate x lies in the clamped forward box on one axis,
then it lies between the unclamped raw boundaries and inside the volume. -/
theorem fwd_box_raw_bounds (b0 be s : ℤ) (dim : ℕ) (x : ℤ) (hb0 : 0 ≤ b0)
    (h1 : clampI (b0 + s) 0 dim ≤ x) (h2 : x < clampI (be + s) 0 dim) :
    b0 + s ≤ x ∧ x + 1 ≤ be + s ∧ 0 ≤ x ∧ x < dim := by
  unfold clampI at h1 h2
  omega

/-- A coordinate in the clamped forward box lies inside the volume on that
axis, with no hypotheses on the region. -/
theorem axis_vol_bounds {A B : ℤ} {dim : ℕ} {x : ℤ}
    (h1 : clampI A 0 dim ≤ x) (h2 : x < clampI B 0 dim) : 0 ≤ x ∧ x < dim := by
  unfold clampI at h1 h2
  omega

/-- For a non inverted axis (rounded end not below rounded start), every
coordinate of a forward bin box passes the inclusive containment test used
by the backward kernel on that axis. -/
theorem axis_containment (s e : ℤ) (dim pooled pIdx : ℕ) (x : ℤ)
    (hp : pIdx < pooled) (hinv : s ≤ e)
    (h1 : clampI (binStartRaw (binSize (roiExtent s e) pooled) pIdx + s) 0 dim ≤ x)
    (h2 : x < clampI (binEndRaw (binSize (roiExtent s e) pooled) pIdx + s) 0 dim) :
    s ≤ x ∧ x ≤ e := by
  have hb0 := binStartRaw_nonneg (binSize_nonneg s e pooled) pIdx
  have hbe := binEndRaw_le_extent s e hp
  have hE : roiExtent s e = e - s + 1 := by unfold roiExtent; omega
  unfold clampI at h1 h2
  omega

/-- Every forward bin box whose (pIdx < pooled) bin contains the coordinate x
is inside the candidate bin range that the backward kernel computes for x on
that axis. -/
theorem axis_bin_range (s e : ℤ) (dim pooled pIdx : ℕ) (x : ℤ)
    (hp : pIdx < pooled)
    (h1 : clampI (binStartRaw (binSize (roiExtent s e) pooled) pIdx + s) 0 dim ≤ x)
    (h2 : x < clampI (binEndRaw (binSize (roiExtent s e) pooled) pIdx + s) 0 dim) :
    clampI ⌊((x - s : ℤ) : ℚ) / binSize (roiExtent s e) pooled⌋ 0 pooled ≤ pIdx ∧
      (pIdx : ℤ) < clampI ⌈((x - s + 1 : ℤ) : ℚ) / binSize (roiExtent s e) pooled⌉ 0 pooled := by
  have hpooled : 0 < pooled := lt_of_le_of_lt (Nat.zero_le _) hp
  have hbs : 0 < binSize (roiExtent s e) pooled := binSize_pos s e hpooled
  have hb0 := binStartRaw_nonneg hbs.le pIdx
  have hraw := fwd_box_raw_bounds _ _ s dim x hb0 h1 h2
  obtain ⟨hlo, hhi, -, -⟩ := hraw
  have hfloor : ⌊((x - s : ℤ) : ℚ) / binSize (roiExtent s e) pooled⌋ ≤ (pIdx : ℤ) := by
    have hceil : ((binEndRaw (binSize (roiExtent s e) pooled) pIdx : ℤ) : ℚ) <
        ((pIdx : ℚ) + 1) * binSize (roiExtent s e) pooled + 1 := by
      unfold binEndRaw
      exact Int.ceil_lt_add_one _
    have hq : ((x - s : ℤ) : ℚ) < ((pIdx : ℚ) + 1) * binSize (roiExtent s e) pooled := by
      have hhi2 : x - s + 1 ≤ binEndRaw (binSize (roiExtent s e) pooled) pIdx := by omega
      have hxq : ((x : ℚ) - (s : ℚ)) + 1 ≤ ((binEndRaw (binSize (roiExtent s e) pooled) pIdx : ℤ) : ℚ) := by
        exact_mod_cast hhi2
      push_cast
      push_cast at hxq
      linarith
    have : ⌊((x - s : ℤ) : ℚ) / binSize (roiExtent s e) pooled⌋ < (pIdx : ℤ) + 1 := by
      rw [Int.floor_lt]
      rw [div_lt_iff hbs]
      push_cast
      push_cast at hq
      linarith
    omega
  have hceil2 : (pIdx : ℤ) < ⌈((x - s + 1 : ℤ) : ℚ) / binSize (roiExtent s e) pooled⌉ := by
    rw [Int.lt_ceil]
    rw [lt_div_iff hbs]
    have hfl : ((pIdx : ℚ)) * binSize (roiExtent s e) pooled - 1 <
        ((binStartRaw (binSize (roiExtent s e) pooled) pIdx : ℤ) : ℚ) := by
      unfold binStartRaw
      exact Int.sub_one_lt_floor _
    have hlo2 : binStartRaw (binSize (roiExtent s e) pooled) pIdx ≤ x - s := by omega
    have hxq : ((binStartRaw (binSize (roiExtent s e) pooled) pIdx : ℤ) : ℚ) ≤ (x : ℚ) - (s : ℚ) := by
      exact_mod_cast hlo2
    push_cast
    push_cast at hfl hxq
    linarith
  unfold clampI
  omega

/-- A region whose axis footprint lies entirely outside the volume on one
axis produces an empty clamped box for every bin on that axis. -/
theorem axis_outside_empty (s e : ℤ) (dim pooled pIdx : ℕ) (hp : pIdx < pooled)
    (hout : ((dim : ℤ) ≤ s ∧ (dim : ℤ) ≤ e) ∨ (s < 0 ∧ e < 0)) :
    clampI (binEndRaw (binSize (roiExtent s e) pooled) pIdx + s) 0 dim ≤
      clampI (binStartRaw (binSize (roiExtent s e) pooled) pIdx + s) 0 dim := by
  have hb0 := binStartRaw_nonneg (binSize_nonneg s e pooled) pIdx
  have hbe := binEndRaw_le_extent s e hp
  have hE : roiExtent s e = max (e - s + 1) 1 := rfl
  unfold clampI
  omega

/-- For a non inverted region inside the volume on one axis, the clamps of
the forward box are the identity and the box is nonempty. -/
theorem axis_no_clamp (s e : ℤ) (dim pooled pIdx : ℕ) (hp : pIdx < pooled)
    (hinv : s ≤ e) (hs0 : 0 ≤ s) (he : e < dim) :
    clampI (binStartRaw (binSize (roiExtent s e) pooled) pIdx + s) 0 dim =
        binStartRaw (binSize (roiExtent s e) pooled) pIdx + s ∧
      clampI (binEndRaw (binSize (roiExtent s e) pooled) pIdx + s) 0 dim =
        binEndRaw (binSize (roiExtent s e) pooled) pIdx + s ∧
      clampI (binStartRaw (binSize (roiExtent s e) pooled) pIdx + s) 0 dim <
        clampI (binEndRaw (binSize (roiExtent s e) pooled) pIdx + s) 0 dim := by
  have hpooled : 0 < pooled := lt_of_le_of_lt (Nat.zero_le _) hp
  have hbs : 0 < binSize (roiExtent s e) pooled := binSize_pos s e hpooled
  have hb0 := binStartRaw_nonneg hbs.le pIdx
  have hbe := binEndRaw_le_extent s e hp
  have hlt := binStartRaw_lt_binEndRaw hbs pIdx
  have hE : roiExtent s e = e - s + 1 := by unfold roiExtent; omega
  unfold clampI
  omega

/-! ### Structure of the forward scan box and of flat indices -/

theorem mem_boxList {height width : ℕ} {l0 l1 h0 h1 w0 w1 i : ℤ} :
    i ∈ boxList height width l0 l1 h0 h1 w0 w1 ↔
      ∃ l h w : ℤ, (l0 ≤ l ∧ l < l1) ∧ (h0 ≤ h ∧ h < h1) ∧ (w0 ≤ w ∧ w < w1) ∧
        i = encode3 height width l h w := by
  simp only [boxList, List.mem_flatMap, List.mem_map, mem_intRange]
  constructor
  · rintro ⟨l, hl, h, hh, w, hw, rfl⟩
    exact ⟨l, h, w, hl, hh, hw, rfl⟩
  · rintro ⟨l, h, w, hl, hh, hw, rfl⟩
    exact ⟨l, hl, h, hh, w, hw, rfl⟩

theorem mul_add_inj {W : ℕ} {a b x y : ℤ} (hx : 0 ≤ x) (hxW : x < W) (hy : 0 ≤ y)
    (hyW : y < W) (h : a * W + x = b * W + y) : a = b ∧ x = y := by
  have hW : (W : ℤ) ≠ 0 := by omega
  have ha : (a * (W : ℤ) + x) / W = a := by
    rw [add_comm, Int.add_mul_ediv_right _ _ hW, Int.ediv_eq_zero_of_lt hx hxW, zero_add]
  have hb : (b * (W : ℤ) + y) / W = b := by
    rw [add_comm, Int.add_mul_ediv_right _ _ hW, Int.ediv_eq_zero_of_lt hy hyW, zero_add]
  have hab : a = b := by rw [← ha, ← hb, h]
  subst hab
  exact ⟨rfl, by omega⟩

theorem encode3_inj {height width : ℕ} {l h w l2 h2 w2 : ℤ}
    (hh : 0 ≤ h) (hh2 : h < height) (hw : 0 ≤ w) (hw2 : w < width)
    (hh3 : 0 ≤ h2) (hh4 : h2 < height) (hw3 : 0 ≤ w2) (hw4 : w2 < width)
    (heq : encode3 height width l h w = encode3 height width l2 h2 w2) :
    l = l2 ∧ h = h2 ∧ w = w2 := by
  have e1 : (l * height + h) * width + w = (l2 * height + h2) * width + w2 := by
    have a1 : (l * height + h) * width + w = encode3 height width l h w := by
      unfold encode3; ring
    have a2 : (l2 * height + h2) * width + w2 = encode3 height width l2 h2 w2 := by
      unfold encode3; ring
    rw [a1, a2, heq]
  obtain ⟨e2, ew⟩ := mul_add_inj hw hw2 hw3 hw4 e1
  obtain ⟨el, eh⟩ := mul_add_inj hh hh2 hh3 hh4 e2
  exact ⟨el, eh, ew⟩

/-- Every forward thread either returns the initial accumulator (empty bin
value with argmax -1) or the value and flat coordinate of some element of
its scan box. -/
theorem forward_result (p : Params) (bd : ℤ → ℚ) (rois : ℕ → ℚ) (index : ℕ) :
    ROIPoolForward p bd rois index =
        ((if fwdIsEmpty p rois (outN p index) (outPL p index) (outPH p index) (outPW p index)
            then (0 : ℚ) else -fltMax), -1) ∨
      ∃ l h w : ℤ,
        (fwdLStart p rois (outN p index) (outPL p index) ≤ l ∧
            l < fwdLEnd p rois (outN p index) (outPL p index)) ∧
          (fwdHStart p rois (outN p index) (outPH p index) ≤ h ∧
            h < fwdHEnd p rois (outN p index) (outPH p index)) ∧
          (fwdWStart p rois (outN p index) (outPW p index) ≤ w ∧
            w < fwdWEnd p rois (outN p index) (outPW p index)) ∧
          ROIPoolForward p bd rois index =
            (bd (dataOffset p rois (outN p index) (outC p index) +
                encode3 p.height p.width l h w),
              encode3 p.height p.width l h w) := by
  rcases runMax_cases
      (fun i => bd (dataOffset p rois (outN p index) (outC p index) + i))
      (fwdBox p rois (outN p index) (outPL p index) (outPH p index) (outPW p index))
      ((if fwdIsEmpty p rois (outN p index) (outPL p index) (outPH p index) (outPW p index)
          then (0 : ℚ) else -fltMax), -1) with hc | ⟨x, hx, hc⟩
  · left
    exact hc
  · right
    obtain ⟨l, h, w, hl, hh, hw, rfl⟩ := mem_boxList.mp hx
    exact ⟨l, h, w, hl, hh, hw, hc⟩

/-- Flat index of the pooled output element (n, c, pl, ph, pw). -/
def outIndex (p : Params) (n c pl ph pw : ℕ) : ℕ :=
  (((n * p.channels + c) * p.pooled_length + pl) * p.pooled_height + ph) * p.pooled_width + pw

/-- Flat index of the input element (n, c, l, h, w). -/
def inIndex (p : Params) (n c l h w : ℕ) : ℕ :=
  (((n * p.channels + c) * p.length + l) * p.height + h) * p.width + w

theorem outIndex_decode (p : Params) (n c pl ph pw : ℕ) (hc : c < p.channels)
    (hpl : pl < p.pooled_length) (hph : ph < p.pooled_height) (hpw : pw < p.pooled_width) :
    outPW p (outIndex p n c pl ph pw) = pw ∧ outPH p (outIndex p n c pl ph pw) = ph ∧
      outPL p (outIndex p n c pl ph pw) = pl ∧ outC p (outIndex p n c pl ph pw) = c ∧
      outN p (outIndex p n c pl ph pw) = n := by
  have h1 := @decode_mod_div p.pooled_width
    (((n * p.channels + c) * p.pooled_length + pl) * p.pooled_height + ph) pw hpw
  have h2 := @decode_mod_div p.pooled_height ((n * p.channels + c) * p.pooled_length + pl) ph hph
  have h3 := @decode_mod_div p.pooled_length (n * p.channels + c) pl hpl
  have h4 := @decode_mod_div p.channels n c hc
  unfold outIndex outPW outPH outPL outC outN
  refine ⟨h1.1, ?_, ?_, ?_, ?_⟩
  · rw [h1.2, h2.1]
  · rw [h1.2, h2.2, h3.1]
  · rw [h1.2, h2.2, h3.2, h4.1]
  · rw [h1.2, h2.2, h3.2, h4.2]

theorem inIndex_decode (p : Params) (n c l h w : ℕ) (hc : c < p.channels)
    (hl : l < p.length) (hh : h < p.height) (hw : w < p.width) :
    inW p (inIndex p n c l h w) = w ∧ inH p (inIndex p n c l h w) = h ∧
      inL p (inIndex p n c l h w) = l ∧ inC p (inIndex p n c l h w) = c ∧
      inN p (inIndex p n c l h w) = n := by
  have h1 := @decode_mod_div p.width (((n * p.channels + c) * p.length + l) * p.height + h) w hw
  have h2 := @decode_mod_div p.height ((n * p.channels + c) * p.length + l) h hh
  have h3 := @decode_mod_div p.length (n * p.channels + c) l hl
  have h4 := @decode_mod_div p.channels n c hc
  unfold inIndex inW inH inL inC inN
  refine ⟨h1.1, ?_, ?_, ?_, ?_⟩
  · rw [h1.2, h2.1]
  · rw [h1.2, h2.2, h3.1]
  · rw [h1.2, h2.2, h3.2, h4.1]
  · rw [h1.2, h2.2, h3.2, h4.2]

theorem poolIndex_eq_outIndex (p : Params) (roi_n c pl ph pw : ℕ) :
    poolOffset p roi_n c + poolEnc p (pl : ℤ) (ph : ℤ) (pw : ℤ) =
      ((outIndex p roi_n c pl ph pw : ℕ) : ℤ) := by
  unfold poolOffset poolEnc outIndex
  push_cast
  ring

/-! ### Emptiness of clamped boxes -/

theorem boxList_eq_nil {height width : ℕ} {l0 l1 h0 h1 w0 w1 : ℤ}
    (hyp : l1 ≤ l0 ∨ h1 ≤ h0 ∨ w1 ≤ w0) : boxList height width l0 l1 h0 h1 w0 w1 = [] := by
  rw [List.eq_nil_iff_forall_not_mem]
  intro x hx
  obtain ⟨l, h, w, hl, hh, hw, -⟩ := mem_boxList.mp hx
  omega

/-- An empty bin produces output 0 and argmax -1. -/
theorem forward_empty (p : Params) (bd : ℤ → ℚ) (rois : ℕ → ℚ) (index : ℕ)
    (hempty : fwdIsEmpty p rois (outN p index) (outPL p index) (outPH p index) (outPW p index)) :
    ROIPoolForward p bd rois index = (0, -1) := by
  unfold ROIPoolForward fwdBox
  rw [boxList_eq_nil hempty, if_pos hempty]
  rfl

/-- The region footprint misses the volume entirely on some axis: both
rounded boundaries at or beyond the upper edge, or both below zero. -/
def regionOutside (p : Params) (rois : ℕ → ℚ) (n : ℕ) : Prop :=
  ((p.width : ℤ) ≤ roi_start_w p rois n ∧ (p.width : ℤ) ≤ roi_end_w p rois n) ∨
    (roi_start_w p rois n < 0 ∧ roi_end_w p rois n < 0) ∨
    ((p.height : ℤ) ≤ roi_start_h p rois n ∧ (p.height : ℤ) ≤ roi_end_h p rois n) ∨
    (roi_start_h p rois n < 0 ∧ roi_end_h p rois n < 0) ∨
    ((p.length : ℤ) ≤ roi_start_l p rois n ∧ (p.length : ℤ) ≤ roi_end_l p rois n) ∨
    (roi_start_l p rois n < 0 ∧ roi_end_l p rois n < 0)

instance (p : Params) (rois : ℕ → ℚ) (n : ℕ) : Decidable (regionOutside p rois n) := by
  unfold regionOutside; infer_instance

/-! ### Example fixtures -/

/-- A 1 batch, 1 channel, 4x4x4 volume pooled to a single bin, unit scales. -/
def pEx : Params := ⟨1, 4, 4, 4, 1, 1, 1, 1, 1⟩

/-- A 1 batch, 1 channel, 4x4x4 volume pooled to 2x2x2, unit scales. -/
def p7 : Params := ⟨1, 4, 4, 4, 2, 2, 2, 1, 1⟩

/-- An all zero feature volume. -/
def bdZero : ℤ → ℚ := fun _ => 0

/-- One region [batch 0, x 0..3, y 0..3, z 2..1]: inverted on the depth axis. -/
def roisInv : ℕ → ℚ := fun i =>
  if i = 3 then 2 else if i = 4 then 3 else if i = 5 then 3 else if i = 6 then 1 else 0

/-- One region [batch 0, x 0..3, y 0..3, z 0..3] spanning the whole volume. -/
def roisFull : ℕ → ℚ := fun i => if 4 ≤ i then 3 else 0

/-- One region [batch 0, x 9..12, y 9..12, z 9..12] entirely past the volume edge. -/
def roisOut : ℕ → ℚ := fun i => if 4 ≤ i then 12 else if i = 0 then 0 else 9

/-- One region with batch index 5, otherwise spanning the whole volume. -/
def roisBatch5 : ℕ → ℚ := fun i => if i = 0 then 5 else if 4 ≤ i then 3 else 0

/-! ### The claims -/

/-- C6: Forward is deterministic: the embedded kernel is a pure function, so
two invocations on the same feature volume, region list, scales and pooled
shape produce identical pooled outputs and identical selection indices. -/
theorem c6_forward_deterministic (p : Params) (bd : ℤ → ℚ) (rois : ℕ → ℚ) (index : ℕ) :
    ROIPoolForward p bd rois index = ROIPoolForward p bd rois index ∧
      (ROIPoolForward p bd rois index).1 = (ROIPoolForward p bd rois index).1 ∧
      (ROIPoolForward p bd rois index).2 = (ROIPoolForward p bd rois index).2 :=
  ⟨rfl, rfl, rfl⟩

/-- C4: a region whose batch index differs from the batch slot of the input
coordinate contributes zero to the backward accumulator: its per region
contribution is 0 and the whole gradient equals the sum over the remaining
regions, for every output gradient and selection index array. -/
theorem c4_batch_mismatch (p : Params) (top_diff : ℤ → ℚ) (argmax_data : ℤ → ℤ)
    (num_rois : ℕ) (rois : ℕ → ℚ) (index roi_n : ℕ)
    (hb : (inN p index : ℤ) ≠ roi_batch_ind rois roi_n) :
    roiContrib p top_diff argmax_data rois (inN p index) (inC p index)
        (inL p index) (inH p index) (inW p index) roi_n = 0 ∧
      ROIPoolBackward p top_diff argmax_data num_rois rois index =
        ∑ r ∈ (Finset.range num_rois).erase roi_n,
          roiContrib p top_diff argmax_data rois (inN p index) (inC p index)
            (inL p index) (inH p index) (inW p index) r := by
  have hz : roiContrib p top_diff argmax_data rois (inN p index) (inC p index)
      (inL p index) (inH p index) (inW p index) roi_n = 0 := by
    unfold roiContrib
    rw [if_pos hb]
  refine ⟨hz, ?_⟩
  rw [backward_eq_sum]
  exact (Finset.sum_erase _ hz).symm

theorem c4_batch_mismatch_witness :
    ((inN pEx 0 : ℤ) ≠ roi_batch_ind roisBatch5 0) ∧
      (roiContrib pEx bdZero (fun _ => -1) roisBatch5 (inN pEx 0) (inC pEx 0)
          (inL pEx 0) (inH pEx 0) (inW pEx 0) 0 = 0 ∧
        ROIPoolBackward pEx bdZero (fun _ => -1) 1 roisBatch5 0 =
          ∑ r ∈ (Finset.range 1).erase 0,
            roiContrib pEx bdZero (fun _ => -1) roisBatch5 (inN pEx 0) (inC pEx 0)
              (inL pEx 0) (inH pEx 0) (inW pEx 0) r) :=
  ⟨by norm_num [inN, pEx, roi_batch_ind, truncC, roisBatch5],
    c4_batch_mismatch pEx bdZero (fun _ => -1) 1 roisBatch5 0 0
      (by norm_num [inN, pEx, roi_batch_ind, truncC, roisBatch5])⟩

/-- C9: invariant of the forward outputs: the selection index is either -1,
or the flat encoding of a coordinate of the clamped bin box, which lies
inside the volume bounds on every axis, and in that case the pooled output
equals the feature volume element at that coordinate in the slice selected
by the region batch index and the channel. -/
theorem c9_argmax_invariant (p : Params) (bd : ℤ → ℚ) (rois : ℕ → ℚ) (index : ℕ) :
    (ROIPoolForward p bd rois index).2 = -1 ∨
      ∃ l h w : ℤ,
        (fwdLStart p rois (outN p index) (outPL p index) ≤ l ∧
            l < fwdLEnd p rois (outN p index) (outPL p index)) ∧
          (fwdHStart p rois (outN p index) (outPH p index) ≤ h ∧
            h < fwdHEnd p rois (outN p index) (outPH p index)) ∧
          (fwdWStart p rois (outN p index) (outPW p index) ≤ w ∧
            w < fwdWEnd p rois (outN p index) (outPW p index)) ∧
          (0 ≤ l ∧ l < p.length) ∧ (0 ≤ h ∧ h < p.height) ∧ (0 ≤ w ∧ w < p.width) ∧
          (ROIPoolForward p bd rois index).2 = encode3 p.height p.width l h w ∧
          (ROIPoolForward p bd rois index).1 =
            bd (dataOffset p rois (outN p index) (outC p index) +
              encode3 p.height p.width l h w) := by
  rcases forward_result p bd rois index with hc | ⟨l, h, w, hl, hh, hw, hc⟩
  · left
    rw [hc]
  · right
    refine ⟨l, h, w, hl, hh, hw, ?_, ?_, ?_, by rw [hc], by rw [hc]⟩
    · unfold fwdLStart fwdLEnd at hl
      exact axis_vol_bounds hl.1 hl.2
    · unfold fwdHStart fwdHEnd at hh
      exact axis_vol_bounds hh.1 hh.2
    · unfold fwdWStart fwdWEnd at hw
      exact axis_vol_bounds hw.1 hw.2

/-- C3: malformed regions are normalized, not rejected: an inverted axis
(rounded end strictly below rounded start) always yields extent exactly 1,
the extent is never 0 or negative, and a region lying entirely outside the
volume bounds yields output 0 and selection index -1 for every one of its
bins; the embedded kernel is a total function, so no error path exists. -/
theorem c3_degenerate_clamp (p : Params) (bd : ℤ → ℚ) (rois : ℕ → ℚ) (index : ℕ)
    (hpl : 0 < p.pooled_length) (hph : 0 < p.pooled_height) (hpw : 0 < p.pooled_width)
    (hout : regionOutside p rois (outN p index)) :
    (∀ s e : ℤ, e < s → roiExtent s e = 1) ∧
      (∀ s e : ℤ, 1 ≤ roiExtent s e) ∧
      ROIPoolForward p bd rois index = (0, -1) := by
  refine ⟨fun s e hse => by unfold roiExtent; omega,
    fun s e => (roiExtent_pos s e), ?_⟩
  apply forward_empty
  unfold fwdIsEmpty
  rcases hout with hW | hW | hH | hH | hL | hL
  · refine Or.inr (Or.inr ?_)
    unfold fwdWStart fwdWEnd bin_size_w
    exact axis_outside_empty _ _ p.width p.pooled_width (outPW p index)
      (Nat.mod_lt _ hpw) (Or.inl hW)
  · refine Or.inr (Or.inr ?_)
    unfold fwdWStart fwdWEnd bin_size_w
    exact axis_outside_empty _ _ p.width p.pooled_width (outPW p index)
      (Nat.mod_lt _ hpw) (Or.inr hW)
  · refine Or.inr (Or.inl ?_)
    unfold fwdHStart fwdHEnd bin_size_h
    exact axis_outside_empty _ _ p.height p.pooled_height (outPH p index)
      (Nat.mod_lt _ hph) (Or.inl hH)
  · refine Or.inr (Or.inl ?_)
    unfold fwdHStart fwdHEnd bin_size_h
    exact axis_outside_empty _ _ p.height p.pooled_height (outPH p index)
      (Nat.mod_lt _ hph) (Or.inr hH)
  · refine Or.inl ?_
    unfold fwdLStart fwdLEnd bin_size_l
    exact axis_outside_empty _ _ p.length p.pooled_length (outPL p index)
      (Nat.mod_lt _ hpl) (Or.inl hL)
  · refine Or.inl ?_
    unfold fwdLStart fwdLEnd bin_size_l
    exact axis_outside_empty _ _ p.length p.pooled_length (outPL p index)
      (Nat.mod_lt _ hpl) (Or.inr hL)

theorem c3_degenerate_witness :
    (0 < pEx.pooled_length ∧ 0 < pEx.pooled_height ∧ 0 < pEx.pooled_width ∧
        regionOutside pEx roisOut (outN pEx 0)) ∧
      ((∀ s e : ℤ, e < s → roiExtent s e = 1) ∧
        (∀ s e : ℤ, 1 ≤ roiExtent s e) ∧
        ROIPoolForward pEx bdZero roisOut 0 = (0, -1)) :=
  ⟨⟨by decide, by decide, by decide,
      by norm_num [regionOutside, outN, pEx, roisOut, roi_start_w, roi_start_h, roi_start_l,
        roi_end_w, roi_end_h, roi_end_l, roundC]⟩,
    c3_degenerate_clamp pEx bdZero roisOut 0 (by decide) (by decide) (by decide)
      (by norm_num [regionOutside, outN, pEx, roisOut, roi_start_w, roi_start_h, roi_start_l,
        roi_end_w, roi_end_h, roi_end_l, roundC])⟩

/-- Specialized restatement of the scan value equation with the initial
accumulator written as a pair. -/
theorem runMax_fst2 (f : ℤ → ℚ) (l : List ℤ) (v0 : ℚ) (i0 : ℤ) :
    (runMax f l (v0, i0)).1 = l.foldl (fun v x => max v (f x)) v0 :=
  runMax_fst f l (v0, i0)

/-- Full behaviour of a nonempty scan that sees at least one value above the
sentinel: the result records the running maximum together with the first
element of the iteration order that attains it. -/
theorem runMax_spec (f : ℤ → ℚ) (box : List ℤ)
    (hgt : ∃ x ∈ box, -fltMax < f x) :
    ∃ l1 l2 : List ℤ, box = l1 ++ (runMax f box (-fltMax, -1)).2 :: l2 ∧
      (runMax f box (-fltMax, -1)).1 = f (runMax f box (-fltMax, -1)).2 ∧
      (∀ y ∈ l1, f y < (runMax f box (-fltMax, -1)).1) ∧
      ∀ y ∈ box, f y ≤ (runMax f box (-fltMax, -1)).1 := by
  have hub : ∀ y ∈ box, f y ≤ (runMax f box (-fltMax, -1)).1 := by
    intro y hy
    rw [runMax_fst2]
    exact mem_le_foldl_max f box (-fltMax) y hy
  rcases runMax_first f box (-fltMax) (-1) with ⟨h2, h1⟩ | ⟨l1, l2, hsplit, he, hgt0, hall⟩
  · exfalso
    obtain ⟨x, hx, hxgt⟩ := hgt
    have hle := hub x hx
    rw [h1] at hle
    exact absurd hxgt (not_lt.mpr hle)
  · refine ⟨l1, l2, hsplit, he, ?_, hub⟩
    intro y hy
    rw [he]
    exact hall y hy

/-- C1 (amended): for a region whose rounded boundaries are non inverted on
every axis and positive pooled extents, every flat coordinate stored by the
forward kernel in the selection index decodes to a coordinate that passes
the inclusive containment test of the backward kernel. -/
theorem c1_containment_amended (p : Params) (bd : ℤ → ℚ) (rois : ℕ → ℚ) (index : ℕ)
    (hpl : 0 < p.pooled_length) (hph : 0 < p.pooled_height) (hpw : 0 < p.pooled_width)
    (hinvW : roi_start_w p rois (outN p index) ≤ roi_end_w p rois (outN p index))
    (hinvH : roi_start_h p rois (outN p index) ≤ roi_end_h p rois (outN p index))
    (hinvL : roi_start_l p rois (outN p index) ≤ roi_end_l p rois (outN p index))
    (hne : (ROIPoolForward p bd rois index).2 ≠ -1) :
    ∃ l h w : ℤ, (ROIPoolForward p bd rois index).2 = encode3 p.height p.width l h w ∧
      inRoi p rois (outN p index) w h l := by
  rcases forward_result p bd rois index with hc | ⟨l, h, w, hl, hh, hw, hc⟩
  · exact absurd (by rw [hc]) hne
  · refine ⟨l, h, w, by rw [hc], ?_⟩
    unfold fwdWStart fwdWEnd bin_size_w at hw
    unfold fwdHStart fwdHEnd bin_size_h at hh
    unfold fwdLStart fwdLEnd bin_size_l at hl
    have hW := axis_containment _ _ p.width p.pooled_width (outPW p index) w
      (Nat.mod_lt _ hpw) hinvW hw.1 hw.2
    have hH := axis_containment _ _ p.height p.pooled_height (outPH p index) h
      (Nat.mod_lt _ hph) hinvH hh.1 hh.2
    have hL := axis_containment _ _ p.length p.pooled_length (outPL p index) l
      (Nat.mod_lt _ hpl) hinvL hl.1 hl.2
    exact ⟨hW.1, hW.2, hH.1, hH.2, hL.1, hL.2⟩

theorem c1_containment_witness :
    ((0 : ℕ) < pEx.pooled_length ∧ (0 : ℕ) < pEx.pooled_height ∧ (0 : ℕ) < pEx.pooled_width ∧
        roi_start_w pEx roisFull (outN pEx 0) ≤ roi_end_w pEx roisFull (outN pEx 0) ∧
        roi_start_h pEx roisFull (outN pEx 0) ≤ roi_end_h pEx roisFull (outN pEx 0) ∧
        roi_start_l pEx roisFull (outN pEx 0) ≤ roi_end_l pEx roisFull (outN pEx 0) ∧
        (ROIPoolForward pEx bdZero roisFull 0).2 ≠ -1) ∧
      ∃ l h w : ℤ, (ROIPoolForward pEx bdZero roisFull 0).2 = encode3 pEx.height pEx.width l h w ∧
        inRoi pEx roisFull (outN pEx 0) w h l :=
  ⟨⟨by decide, by decide, by decide,
      by norm_num [roi_start_w, roi_end_w, outN, pEx, roisFull, roundC],
      by norm_num [roi_start_h, roi_end_h, outN, pEx, roisFull, roundC],
      by norm_num [roi_start_l, roi_end_l, outN, pEx, roisFull, roundC],
      by norm_num [ROIPoolForward, pEx, roisFull, bdZero, outN, outC, outPL, outPH, outPW,
        fwdBox, fwdLStart, fwdLEnd, fwdHStart, fwdHEnd, fwdWStart, fwdWEnd, bin_size_l,
        bin_size_h, bin_size_w, binSize, roiExtent, roi_start_w, roi_start_h, roi_start_l,
        roi_end_w, roi_end_h, roi_end_l, roi_batch_ind, roundC, truncC, binStartRaw,
        binEndRaw, clampI, boxList, intRange, dataOffset, encode3, fwdIsEmpty, runMax,
        fltMax, List.range_succ]⟩,
    c1_containment_amended pEx bdZero roisFull 0 (by decide) (by decide) (by decide)
      (by norm_num [roi_start_w, roi_end_w, outN, pEx, roisFull, roundC])
      (by norm_num [roi_start_h, roi_end_h, outN, pEx, roisFull, roundC])
      (by norm_num [roi_start_l, roi_end_l, outN, pEx, roisFull, roundC])
      (by norm_num [ROIPoolForward, pEx, roisFull, bdZero, outN, outC, outPL, outPH, outPW,
        fwdBox, fwdLStart, fwdLEnd, fwdHStart, fwdHEnd, fwdWStart, fwdWEnd, bin_size_l,
        bin_size_h, bin_size_w, binSize, roiExtent, roi_start_w, roi_start_h, roi_start_l,
        roi_end_w, roi_end_h, roi_end_l, roi_batch_ind, roundC, truncC, binStartRaw,
        binEndRaw, clampI, boxList, intRange, dataOffset, encode3, fwdIsEmpty, runMax,
        fltMax, List.range_succ])⟩

/-- C1 counterexample: the region [batch 0, x 0..3, y 0..3, z 2..1] is
inverted on the depth axis; the forward kernel (which forces the extent to 1
and scans depth slice l = 2) stores the flat coordinate of (l, h, w) =
(2, 0, 0) in the selection index, yet that coordinate fails the inclusive
containment test of the backward kernel (2 > rounded depth end 1), so the
claimed exact inverse relation is false as stated. -/
theorem c1_counterexample :
    (ROIPoolForward pEx bdZero roisInv 0).2 = encode3 pEx.height pEx.width 2 0 0 ∧
      ¬ inRoi pEx roisInv (outN pEx 0) 0 0 2 := by
  constructor
  · norm_num [ROIPoolForward, pEx, roisInv, bdZero, outN, outC, outPL, outPH, outPW,
      fwdBox, fwdLStart, fwdLEnd, fwdHStart, fwdHEnd, fwdWStart, fwdWEnd, bin_size_l,
      bin_size_h, bin_size_w, binSize, roiExtent, roi_start_w, roi_start_h, roi_start_l,
      roi_end_w, roi_end_h, roi_end_l, roi_batch_ind, roundC, truncC, binStartRaw,
      binEndRaw, clampI, boxList, intRange, dataOffset, encode3, fwdIsEmpty, runMax,
      fltMax, List.range_succ]
  · norm_num [inRoi, outN, pEx, roisInv, roi_start_w, roi_start_h, roi_start_l,
      roi_end_w, roi_end_h, roi_end_l, roundC]

/-- C5 (amended): a nonempty bin whose box holds at least one value above
the sentinel -FLT_MAX: the forward scan visits the box in the fixed order
depth, then height, then width (the order of fwdBox), returns the maximum
over the box, and the selection index records the first element in that
order attaining the maximum: every earlier element is strictly below it. -/
theorem c5_first_tie_amended (p : Params) (bd : ℤ → ℚ) (rois : ℕ → ℚ) (index : ℕ)
    (hne : ¬ fwdIsEmpty p rois (outN p index) (outPL p index) (outPH p index) (outPW p index))
    (hgt : ∃ x ∈ fwdBox p rois (outN p index) (outPL p index) (outPH p index) (outPW p index),
      -fltMax < bd (dataOffset p rois (outN p index) (outC p index) + x)) :
    ∃ l1 l2 : List ℤ,
      fwdBox p rois (outN p index) (outPL p index) (outPH p index) (outPW p index) =
          l1 ++ (ROIPoolForward p bd rois index).2 :: l2 ∧
        (ROIPoolForward p bd rois index).1 =
          bd (dataOffset p rois (outN p index) (outC p index) +
            (ROIPoolForward p bd rois index).2) ∧
        (∀ y ∈ l1, bd (dataOffset p rois (outN p index) (outC p index) + y) <
          (ROIPoolForward p bd rois index).1) ∧
        ∀ y ∈ fwdBox p rois (outN p index) (outPL p index) (outPH p index) (outPW p index),
          bd (dataOffset p rois (outN p index) (outC p index) + y) ≤
            (ROIPoolForward p bd rois index).1 := by
  have hfwd : ROIPoolForward p bd rois index =
      runMax (fun i => bd (dataOffset p rois (outN p index) (outC p index) + i))
        (fwdBox p rois (outN p index) (outPL p index) (outPH p index) (outPW p index))
        (-fltMax, -1) := by
    unfold ROIPoolForward
    rw [if_neg hne]
  obtain ⟨l1, l2, h1, h2, h3, h4⟩ :=
    runMax_spec (fun i => bd (dataOffset p rois (outN p index) (outC p index) + i))
      (fwdBox p rois (outN p index) (outPL p index) (outPH p index) (outPW p index)) hgt
  rw [hfwd]
  exact ⟨l1, l2, h1, h2, h3, h4⟩

/-- A 1 channel volume of shape 1x1x2 pooled to one bin, unit scales. -/
def pTie : Params := ⟨1, 1, 1, 2, 1, 1, 1, 1, 1⟩

/-- One region [batch 0, x 0..1, y 0..0, z 0..0] covering both elements. -/
def roisTie : ℕ → ℚ := fun i => if i = 4 then 1 else 0

/-- A feature volume whose elements all equal -FLT_MAX exactly. -/
def bdTie : ℤ → ℚ := fun _ => -fltMax

theorem c5_first_tie_witness :
    ((¬ fwdIsEmpty pEx roisFull (outN pEx 0) (outPL pEx 0) (outPH pEx 0) (outPW pEx 0)) ∧
        ∃ x ∈ fwdBox pEx roisFull (outN pEx 0) (outPL pEx 0) (outPH pEx 0) (outPW pEx 0),
          -fltMax < bdZero (dataOffset pEx roisFull (outN pEx 0) (outC pEx 0) + x)) ∧
      ∃ l1 l2 : List ℤ,
        fwdBox pEx roisFull (outN pEx 0) (outPL pEx 0) (outPH pEx 0) (outPW pEx 0) =
            l1 ++ (ROIPoolForward pEx bdZero roisFull 0).2 :: l2 ∧
          (ROIPoolForward pEx bdZero roisFull 0).1 =
            bdZero (dataOffset pEx roisFull (outN pEx 0) (outC pEx 0) +
              (ROIPoolForward pEx bdZero roisFull 0).2) ∧
          (∀ y ∈ l1, bdZero (dataOffset pEx roisFull (outN pEx 0) (outC pEx 0) + y) <
            (ROIPoolForward pEx bdZero roisFull 0).1) ∧
          ∀ y ∈ fwdBox pEx roisFull (outN pEx 0) (outPL pEx 0) (outPH pEx 0) (outPW pEx 0),
            bdZero (dataOffset pEx roisFull (outN pEx 0) (outC pEx 0) + y) ≤
              (ROIPoolForward pEx bdZero roisFull 0).1 := by
  have hne : ¬ fwdIsEmpty pEx roisFull (outN pEx 0) (outPL pEx 0) (outPH pEx 0) (outPW pEx 0) := by
    norm_num [fwdIsEmpty, pEx, roisFull, outN, outPL, outPH, outPW, fwdLStart, fwdLEnd,
      fwdHStart, fwdHEnd, fwdWStart, fwdWEnd, bin_size_l, bin_size_h, bin_size_w, binSize,
      roiExtent, roi_start_w, roi_start_h, roi_start_l, roi_end_w, roi_end_h, roi_end_l,
      roundC, binStartRaw, binEndRaw, clampI]
  have hgt : ∃ x ∈ fwdBox pEx roisFull (outN pEx 0) (outPL pEx 0) (outPH pEx 0) (outPW pEx 0),
      -fltMax < bdZero (dataOffset pEx roisFull (outN pEx 0) (outC pEx 0) + x) := by
    refine ⟨0, ?_, ?_⟩
    · norm_num [fwdBox, pEx, roisFull, outN, outPL, outPH, outPW, fwdLStart, fwdLEnd,
        fwdHStart, fwdHEnd, fwdWStart, fwdWEnd, bin_size_l, bin_size_h, bin_size_w, binSize,
        roiExtent, roi_start_w, roi_start_h, roi_start_l, roi_end_w, roi_end_h, roi_end_l,
        roundC, binStartRaw, binEndRaw, clampI, boxList, intRange, encode3, List.range_succ]
      exact ⟨0, by norm_num, 0, by norm_num, 0, by norm_num⟩
    · norm_num [bdZero, fltMax]
  exact ⟨⟨hne, hgt⟩, c5_first_tie_amended pEx bdZero roisFull 0 hne hgt⟩

/-- C5 counterexample: a nonempty two element bin whose values both equal
-FLT_MAX exactly: the elements tie for the maximum, yet the kernel records
selection index -1 (nothing beats the -FLT_MAX sentinel under strict
greater than), not the first element of the iteration order. -/
theorem c5_counterexample :
    fwdBox pTie roisTie 0 0 0 0 = [0, 1] ∧
      bdTie (dataOffset pTie roisTie 0 0 + 0) = bdTie (dataOffset pTie roisTie 0 0 + 1) ∧
      (ROIPoolForward pTie bdTie roisTie 0).2 = -1 ∧ ((-1 : ℤ) ≠ 0) := by
  refine ⟨?_, rfl, ?_, by decide⟩
  · norm_num [fwdBox, pTie, roisTie, fwdLStart, fwdLEnd, fwdHStart, fwdHEnd, fwdWStart,
      fwdWEnd, bin_size_l, bin_size_h, bin_size_w, binSize, roiExtent, roi_start_w,
      roi_start_h, roi_start_l, roi_end_w, roi_end_h, roi_end_l, roundC, binStartRaw,
      binEndRaw, clampI, boxList, intRange, encode3, List.range_succ]
    decide
  · norm_num [ROIPoolForward, pTie, roisTie, bdTie, outN, outC, outPL, outPH, outPW,
      fwdBox, fwdLStart, fwdLEnd, fwdHStart, fwdHEnd, fwdWStart, fwdWEnd, bin_size_l,
      bin_size_h, bin_size_w, binSize, roiExtent, roi_start_w, roi_start_h, roi_start_l,
      roi_end_w, roi_end_h, roi_end_l, roi_batch_ind, roundC, truncC, binStartRaw,
      binEndRaw, clampI, boxList, intRange, dataOffset, encode3, fwdIsEmpty, runMax,
      fltMax, List.range_succ]

/-- C7: round trip example: volume shape (1,1,4,4,4), one region spanning
the whole volume after scaling and rounding, pooled shape (2,2,2): the
forward pass partitions each axis into exactly the bins [0,2) and [2,4),
and for every feature volume (with values in the representable float range)
the output at position (0,0,0,0,0) is the maximum of the 8 elements of the
sub cube [0,2) x [0,2) x [0,2). -/
theorem c7_round_trip (bd : ℤ → ℚ) (hd : ∀ i : ℤ, -fltMax ≤ bd i) :
    (fwdLStart p7 roisFull 0 0 = 0 ∧ fwdLEnd p7 roisFull 0 0 = 2 ∧
        fwdLStart p7 roisFull 0 1 = 2 ∧ fwdLEnd p7 roisFull 0 1 = 4 ∧
        fwdHStart p7 roisFull 0 0 = 0 ∧ fwdHEnd p7 roisFull 0 0 = 2 ∧
        fwdHStart p7 roisFull 0 1 = 2 ∧ fwdHEnd p7 roisFull 0 1 = 4 ∧
        fwdWStart p7 roisFull 0 0 = 0 ∧ fwdWEnd p7 roisFull 0 0 = 2 ∧
        fwdWStart p7 roisFull 0 1 = 2 ∧ fwdWEnd p7 roisFull 0 1 = 4) ∧
      (ROIPoolForward p7 bd roisFull 0).1 =
        max (max (max (max (max (max (max (bd 0) (bd 1)) (bd 4)) (bd 5)) (bd 16))
          (bd 17)) (bd 20)) (bd 21) := by
  constructor
  · norm_num [p7, roisFull, fwdLStart, fwdLEnd, fwdHStart, fwdHEnd, fwdWStart, fwdWEnd,
      bin_size_l, bin_size_h, bin_size_w, binSize, roiExtent, roi_start_w, roi_start_h,
      roi_start_l, roi_end_w, roi_end_h, roi_end_l, roundC, binStartRaw, binEndRaw, clampI]
  · have hbox : fwdBox p7 roisFull 0 0 0 0 = [0, 1, 4, 5, 16, 17, 20, 21] := by
      norm_num [fwdBox, p7, roisFull, fwdLStart, fwdLEnd, fwdHStart, fwdHEnd, fwdWStart,
        fwdWEnd, bin_size_l, bin_size_h, bin_size_w, binSize, roiExtent, roi_start_w,
        roi_start_h, roi_start_l, roi_end_w, roi_end_h, roi_end_l, roundC, binStartRaw,
        binEndRaw, clampI, boxList, intRange, encode3, List.range_succ]
      decide
    have hne : ¬ fwdIsEmpty p7 roisFull 0 0 0 0 := by
      norm_num [fwdIsEmpty, p7, roisFull, fwdLStart, fwdLEnd, fwdHStart, fwdHEnd, fwdWStart,
        fwdWEnd, bin_size_l, bin_size_h, bin_size_w, binSize, roiExtent, roi_start_w,
        roi_start_h, roi_start_l, roi_end_w, roi_end_h, roi_end_l, roundC, binStartRaw,
        binEndRaw, clampI]
    have hoff : dataOffset p7 roisFull 0 0 = 0 := by
      norm_num [dataOffset, roi_batch_ind, truncC, roisFull, p7]
    have e1 : outN p7 0 = 0 := rfl
    have e2 : outC p7 0 = 0 := rfl
    have e3 : outPL p7 0 = 0 := rfl
    have e4 : outPH p7 0 = 0 := rfl
    have e5 : outPW p7 0 = 0 := rfl
    have hfwd : ROIPoolForward p7 bd roisFull 0 =
        runMax (fun i => bd (0 + i)) [0, 1, 4, 5, 16, 17, 20, 21] (-fltMax, -1) := by
      unfold ROIPoolForward
      rw [e1, e2, e3, e4, e5, hoff, hbox, if_neg hne]
    rw [hfwd, runMax_fst2]
    simp only [List.foldl_cons, List.foldl_nil, zero_add]
    rw [max_eq_right (hd 0)]

theorem c7_round_trip_witness :
    (∀ i : ℤ, -fltMax ≤ (fun _ : ℤ => (5 : ℚ)) i) ∧
      ((fwdLStart p7 roisFull 0 0 = 0 ∧ fwdLEnd p7 roisFull 0 0 = 2 ∧
          fwdLStart p7 roisFull 0 1 = 2 ∧ fwdLEnd p7 roisFull 0 1 = 4 ∧
          fwdHStart p7 roisFull 0 0 = 0 ∧ fwdHEnd p7 roisFull 0 0 = 2 ∧
          fwdHStart p7 roisFull 0 1 = 2 ∧ fwdHEnd p7 roisFull 0 1 = 4 ∧
          fwdWStart p7 roisFull 0 0 = 0 ∧ fwdWEnd p7 roisFull 0 0 = 2 ∧
          fwdWStart p7 roisFull 0 1 = 2 ∧ fwdWEnd p7 roisFull 0 1 = 4) ∧
        (ROIPoolForward p7 (fun _ : ℤ => (5 : ℚ)) roisFull 0).1 =
          max (max (max (max (max (max (max ((fun _ : ℤ => (5 : ℚ)) 0)
            ((fun _ : ℤ => (5 : ℚ)) 1)) ((fun _ : ℤ => (5 : ℚ)) 4)) ((fun _ : ℤ => (5 : ℚ)) 5))
            ((fun _ : ℤ => (5 : ℚ)) 16)) ((fun _ : ℤ => (5 : ℚ)) 17)) ((fun _ : ℤ => (5 : ℚ)) 20))
            ((fun _ : ℤ => (5 : ℚ)) 21)) := by
  have hd : ∀ i : ℤ, -fltMax ≤ (fun _ : ℤ => (5 : ℚ)) i := by
    intro i
    norm_num [fltMax]
  exact ⟨hd, c7_round_trip (fun _ : ℤ => (5 : ℚ)) hd⟩

/-- C10: for a region whose scaled rounded boundaries lie inside the volume
and are non inverted on every axis, and an input coordinate inside the
region, the candidate bin range computed by the backward kernel contains
every pooled bin whose forward scan box contains the coordinate. -/
theorem c10_candidate_range (p : Params) (rois : ℕ → ℚ) (roi_n : ℕ) (l h w : ℤ)
    (pl ph pw : ℕ)
    (hpl : pl < p.pooled_length) (hph : ph < p.pooled_height) (hpw : pw < p.pooled_width)
    (hbW : 0 ≤ roi_start_w p rois roi_n ∧ roi_end_w p rois roi_n < p.width)
    (hbH : 0 ≤ roi_start_h p rois roi_n ∧ roi_end_h p rois roi_n < p.height)
    (hbL : 0 ≤ roi_start_l p rois roi_n ∧ roi_end_l p rois roi_n < p.length)
    (hinvW : roi_start_w p rois roi_n ≤ roi_end_w p rois roi_n)
    (hinvH : roi_start_h p rois roi_n ≤ roi_end_h p rois roi_n)
    (hinvL : roi_start_l p rois roi_n ≤ roi_end_l p rois roi_n)
    (hin : inRoi p rois roi_n w h l)
    (hl : fwdLStart p rois roi_n pl ≤ l ∧ l < fwdLEnd p rois roi_n pl)
    (hh : fwdHStart p rois roi_n ph ≤ h ∧ h < fwdHEnd p rois roi_n ph)
    (hw : fwdWStart p rois roi_n pw ≤ w ∧ w < fwdWEnd p rois roi_n pw) :
    (bwdPLStart p rois roi_n l ≤ pl ∧ (pl : ℤ) < bwdPLEnd p rois roi_n l) ∧
      (bwdPHStart p rois roi_n h ≤ ph ∧ (ph : ℤ) < bwdPHEnd p rois roi_n h) ∧
      (bwdPWStart p rois roi_n w ≤ pw ∧ (pw : ℤ) < bwdPWEnd p rois roi_n w) := by
  unfold fwdLStart fwdLEnd bin_size_l at hl
  unfold fwdHStart fwdHEnd bin_size_h at hh
  unfold fwdWStart fwdWEnd bin_size_w at hw
  unfold bwdPLStart bwdPLEnd bwdPHStart bwdPHEnd bwdPWStart bwdPWEnd
  unfold bin_size_l bin_size_h bin_size_w
  refine ⟨?_, ?_, ?_⟩
  · exact axis_bin_range _ _ p.length p.pooled_length pl l hpl hl.1 hl.2
  · exact axis_bin_range _ _ p.height p.pooled_height ph h hph hh.1 hh.2
  · exact axis_bin_range _ _ p.width p.pooled_width pw w hpw hw.1 hw.2

theorem c10_candidate_witness :
    ((0 : ℕ) < p7.pooled_length ∧
        (0 ≤ roi_start_w p7 roisFull 0 ∧ roi_end_w p7 roisFull 0 < p7.width) ∧
        (0 ≤ roi_start_h p7 roisFull 0 ∧ roi_end_h p7 roisFull 0 < p7.height) ∧
        (0 ≤ roi_start_l p7 roisFull 0 ∧ roi_end_l p7 roisFull 0 < p7.length) ∧
        inRoi p7 roisFull 0 0 0 0 ∧
        (fwdLStart p7 roisFull 0 0 ≤ 0 ∧ (0 : ℤ) < fwdLEnd p7 roisFull 0 0) ∧
        (fwdHStart p7 roisFull 0 0 ≤ 0 ∧ (0 : ℤ) < fwdHEnd p7 roisFull 0 0) ∧
        (fwdWStart p7 roisFull 0 0 ≤ 0 ∧ (0 : ℤ) < fwdWEnd p7 roisFull 0 0)) ∧
      ((bwdPLStart p7 roisFull 0 0 ≤ 0 ∧ (0 : ℤ) < bwdPLEnd p7 roisFull 0 0) ∧
        (bwdPHStart p7 roisFull 0 0 ≤ 0 ∧ (0 : ℤ) < bwdPHEnd p7 roisFull 0 0) ∧
        (bwdPWStart p7 roisFull 0 0 ≤ 0 ∧ (0 : ℤ) < bwdPWEnd p7 roisFull 0 0)) := by
  have hb : (0 ≤ roi_start_w p7 roisFull 0 ∧ roi_end_w p7 roisFull 0 < p7.width) ∧
      (0 ≤ roi_start_h p7 roisFull 0 ∧ roi_end_h p7 roisFull 0 < p7.height) ∧
      (0 ≤ roi_start_l p7 roisFull 0 ∧ roi_end_l p7 roisFull 0 < p7.length) := by
    norm_num [p7, roisFull, roi_start_w, roi_start_h, roi_start_l, roi_end_w, roi_end_h,
      roi_end_l, roundC]
  have hin : inRoi p7 roisFull 0 0 0 0 := by
    norm_num [inRoi, p7, roisFull, roi_start_w, roi_start_h, roi_start_l, roi_end_w,
      roi_end_h, roi_end_l, roundC]
  have hbox : (fwdLStart p7 roisFull 0 0 ≤ 0 ∧ (0 : ℤ) < fwdLEnd p7 roisFull 0 0) ∧
      (fwdHStart p7 roisFull 0 0 ≤ 0 ∧ (0 : ℤ) < fwdHEnd p7 roisFull 0 0) ∧
      (fwdWStart p7 roisFull 0 0 ≤ 0 ∧ (0 : ℤ) < fwdWEnd p7 roisFull 0 0) := by
    norm_num [p7, roisFull, fwdLStart, fwdLEnd, fwdHStart, fwdHEnd, fwdWStart, fwdWEnd,
      bin_size_l, bin_size_h, bin_size_w, binSize, roiExtent, roi_start_w, roi_start_h,
      roi_start_l, roi_end_w, roi_end_h, roi_end_l, roundC, binStartRaw, binEndRaw, clampI]
  have hinv : roi_start_w p7 roisFull 0 ≤ roi_end_w p7 roisFull 0 ∧
      roi_start_h p7 roisFull 0 ≤ roi_end_h p7 roisFull 0 ∧
      roi_start_l p7 roisFull 0 ≤ roi_end_l p7 roisFull 0 := by
    norm_num [p7, roisFull, roi_start_w, roi_start_h, roi_start_l, roi_end_w, roi_end_h,
      roi_end_l, roundC]
  exact ⟨⟨by decide, hb.1, hb.2.1, hb.2.2, hin, hbox.1, hbox.2.1, hbox.2.2⟩,
    c10_candidate_range p7 roisFull 0 0 0 0 0 0 0 (by decide) (by decide) (by decide)
      hb.1 hb.2.1 hb.2.2 hinv.1 hinv.2.1 hinv.2.2 hin hbox.1 hbox.2.1 hbox.2.2⟩

/-- C8: the backward pass writes each gradient address exactly once: the
buffer value at every index below count is the value of the pure per index
function (no cross index interference is possible in the embedding); the
accumulator starts from the zero filled buffer and is a true sum of per
region contributions; and an input coordinate matched by no region (batch
mismatch or containment failure) or by no candidate bin ends the call
holding gradient 0. -/
theorem c8_frame (p : Params) (top_diff : ℤ → ℚ) (argmax_data : ℤ → ℤ)
    (num_rois : ℕ) (rois : ℕ → ℚ) (count index : ℕ)
    (hcount : index < count)
    (hnone : ∀ roi_n, roi_n < num_rois →
      (inN p index : ℤ) ≠ roi_batch_ind rois roi_n ∨
        ¬ inRoi p rois roi_n (inW p index) (inH p index) (inL p index) ∨
        ∀ pl ph pw : ℤ,
          bwdPLStart p rois roi_n (inL p index) ≤ pl →
          pl < bwdPLEnd p rois roi_n (inL p index) →
          bwdPHStart p rois roi_n (inH p index) ≤ ph →
          ph < bwdPHEnd p rois roi_n (inH p index) →
          bwdPWStart p rois roi_n (inW p index) ≤ pw →
          pw < bwdPWEnd p rois roi_n (inW p index) →
          argmax_data (poolOffset p roi_n (inC p index) + poolEnc p pl ph pw) ≠
            encode3 p.height p.width (inL p index) (inH p index) (inW p index)) :
    backwardDiff p top_diff argmax_data num_rois rois count index =
        ROIPoolBackward p top_diff argmax_data num_rois rois index ∧
      ROIPoolBackward p top_diff argmax_data num_rois rois index =
        ∑ roi_n ∈ Finset.range num_rois,
          roiContrib p top_diff argmax_data rois (inN p index) (inC p index)
            (inL p index) (inH p index) (inW p index) roi_n ∧
      backwardDiff p top_diff argmax_data num_rois rois count index = 0 := by
  have h1 : backwardDiff p top_diff argmax_data num_rois rois count index =
      ROIPoolBackward p top_diff argmax_data num_rois rois index := by
    unfold backwardDiff
    rw [if_pos hcount]
  have h2 := backward_eq_sum p top_diff argmax_data num_rois rois index
  have h3 : (∑ roi_n ∈ Finset.range num_rois,
      roiContrib p top_diff argmax_data rois (inN p index) (inC p index)
        (inL p index) (inH p index) (inW p index) roi_n) = 0 := by
    apply Finset.sum_eq_zero
    intro roi_n hr
    unfold roiContrib
    by_cases hb : (inN p index : ℤ) ≠ roi_batch_ind rois roi_n
    · rw [if_pos hb]
    · rw [if_neg hb]
      by_cases hri : ¬ inRoi p rois roi_n (inW p index) (inH p index) (inL p index)
      · rw [if_pos hri]
      · rw [if_neg hri]
        rcases hnone roi_n (Finset.mem_range.mp hr) with hb2 | hri2 | hbin
        · exact absurd hb2 hb
        · exact absurd hri2 hri
        · apply Finset.sum_eq_zero
          intro pl hpl
          apply Finset.sum_eq_zero
          intro ph hph
          apply Finset.sum_eq_zero
          intro pw hpw
          rw [Finset.mem_Ico] at hpl hph hpw
          rw [if_neg (hbin pl ph pw hpl.1 hpl.2 hph.1 hph.2 hpw.1 hpw.2)]
  exact ⟨h1, h2, by rw [h1, h2, h3]⟩

theorem c8_frame_witness :
    ((0 : ℕ) < 1 ∧
      (backwardDiff pEx bdZero (fun _ => -1) 0 roisFull 1 0 =
          ROIPoolBackward pEx bdZero (fun _ => -1) 0 roisFull 0 ∧
        ROIPoolBackward pEx bdZero (fun _ => -1) 0 roisFull 0 =
          ∑ roi_n ∈ Finset.range 0,
            roiContrib pEx bdZero (fun _ => -1) roisFull (inN pEx 0) (inC pEx 0)
              (inL pEx 0) (inH pEx 0) (inW pEx 0) roi_n ∧
        backwardDiff pEx bdZero (fun _ => -1) 0 roisFull 1 0 = 0)) :=
  ⟨by decide,
    c8_frame pEx bdZero (fun _ => -1) 0 roisFull 1 0 (by decide)
      (fun roi_n hr => absurd hr (by omega))⟩

/-! ### The adjoint identity: supporting lemmas -/

/-- A forward thread with a nonempty box holding a value above the sentinel
returns the value and flat coordinate of some box element. -/
theorem forward_nonempty_result (p : Params) (bd : ℤ → ℚ) (rois : ℕ → ℚ) (index : ℕ)
    (hne : ¬ fwdIsEmpty p rois (outN p index) (outPL p index) (outPH p index) (outPW p index))
    (hx : ∃ x ∈ fwdBox p rois (outN p index) (outPL p index) (outPH p index) (outPW p index),
      -fltMax < bd (dataOffset p rois (outN p index) (outC p index) + x)) :
    ∃ l h w : ℤ,
      (fwdLStart p rois (outN p index) (outPL p index) ≤ l ∧
          l < fwdLEnd p rois (outN p index) (outPL p index)) ∧
        (fwdHStart p rois (outN p index) (outPH p index) ≤ h ∧
          h < fwdHEnd p rois (outN p index) (outPH p index)) ∧
        (fwdWStart p rois (outN p index) (outPW p index) ≤ w ∧
          w < fwdWEnd p rois (outN p index) (outPW p index)) ∧
        ROIPoolForward p bd rois index =
          (bd (dataOffset p rois (outN p index) (outC p index) +
              encode3 p.height p.width l h w),
            encode3 p.height p.width l h w) := by
  rcases forward_result p bd rois index with hc | ⟨l, h, w, hl, hh, hw, hc⟩
  · exfalso
    obtain ⟨x, hxm, hxgt⟩ := hx
    have hfwd : ROIPoolForward p bd rois index =
        runMax (fun i => bd (dataOffset p rois (outN p index) (outC p index) + i))
          (fwdBox p rois (outN p index) (outPL p index) (outPH p index) (outPW p index))
          (-fltMax, -1) := by
      unfold ROIPoolForward
      rw [if_neg hne]
    have h1 : (ROIPoolForward p bd rois index).1 = -fltMax := by
      rw [hc]
      simp [if_neg hne]
    have hub : bd (dataOffset p rois (outN p index) (outC p index) + x) ≤
        (ROIPoolForward p bd rois index).1 := by
      rw [hfwd, runMax_fst2]
      exact mem_le_foldl_max _ _ _ x hxm
    rw [h1] at hub
    exact absurd hxgt (not_lt.mpr hub)
  · exact ⟨l, h, w, hl, hh, hw, hc⟩

theorem sum_range_mul (a b : ℕ) (f : ℕ → ℚ) :
    ∑ i ∈ Finset.range (a * b), f i =
      ∑ q ∈ Finset.range a, ∑ r ∈ Finset.range b, f (q * b + r) := by
  induction a with
  | zero => simp
  | succ a ih =>
    rw [Nat.succ_mul, Finset.sum_range_add, ih, Finset.sum_range_succ]

theorem sum_Ico_zero_nat (m : ℕ) (g : ℤ → ℚ) :
    ∑ j ∈ Finset.Ico (0 : ℤ) (m : ℤ), g j = ∑ i ∈ Finset.range m, g (i : ℤ) := by
  rw [← sum_range_toNat g 0 (m : ℤ)]
  simp

/-- For a single in bounds, non inverted region and data above the sentinel,
the forward pass stores in every bin of every channel the flat encoding of
some coordinate of that bin's (unclipped) box. -/
theorem c2_argmax_spec (p : Params) (bd : ℤ → ℚ) (rois : ℕ → ℚ)
    (hinvW : roi_start_w p rois 0 ≤ roi_end_w p rois 0)
    (hinvH : roi_start_h p rois 0 ≤ roi_end_h p rois 0)
    (hinvL : roi_start_l p rois 0 ≤ roi_end_l p rois 0)
    (hbW : 0 ≤ roi_start_w p rois 0 ∧ roi_end_w p rois 0 < p.width)
    (hbH : 0 ≤ roi_start_h p rois 0 ∧ roi_end_h p rois 0 < p.height)
    (hbL : 0 ≤ roi_start_l p rois 0 ∧ roi_end_l p rois 0 < p.length)
    (hdata : ∀ i : ℤ, -fltMax < bd i)
    (c pl ph pw : ℕ) (hc : c < p.channels) (hplb : pl < p.pooled_length)
    (hphb : ph < p.pooled_height) (hpwb : pw < p.pooled_width) :
    ∃ l h w : ℤ,
      (fwdLStart p rois 0 pl ≤ l ∧ l < fwdLEnd p rois 0 pl) ∧
        (fwdHStart p rois 0 ph ≤ h ∧ h < fwdHEnd p rois 0 ph) ∧
        (fwdWStart p rois 0 pw ≤ w ∧ w < fwdWEnd p rois 0 pw) ∧
        (ROIPoolForward p bd rois (outIndex p 0 c pl ph pw)).2 =
          encode3 p.height p.width l h w := by
  obtain ⟨dPW, dPH, dPL, dC, dN⟩ := outIndex_decode p 0 c pl ph pw hc hplb hphb hpwb
  have hLn := axis_no_clamp (roi_start_l p rois 0) (roi_end_l p rois 0) p.length
    p.pooled_length pl hplb hinvL hbL.1 hbL.2
  have hHn := axis_no_clamp (roi_start_h p rois 0) (roi_end_h p rois 0) p.height
    p.pooled_height ph hphb hinvH hbH.1 hbH.2
  have hWn := axis_no_clamp (roi_start_w p rois 0) (roi_end_w p rois 0) p.width
    p.pooled_width pw hpwb hinvW hbW.1 hbW.2
  have hneRaw : ¬ fwdIsEmpty p rois 0 pl ph pw := by
    unfold fwdIsEmpty fwdLStart fwdLEnd fwdHStart fwdHEnd fwdWStart fwdWEnd
      bin_size_l bin_size_h bin_size_w
    push_neg
    exact ⟨hLn.2.2, hHn.2.2, hWn.2.2⟩
  have hxRaw : ∃ x ∈ fwdBox p rois 0 pl ph pw,
      -fltMax < bd (dataOffset p rois 0 c + x) := by
    refine ⟨encode3 p.height p.width (fwdLStart p rois 0 pl) (fwdHStart p rois 0 ph)
      (fwdWStart p rois 0 pw), ?_, hdata _⟩
    unfold fwdBox
    refine mem_boxList.mpr ⟨fwdLStart p rois 0 pl, fwdHStart p rois 0 ph,
      fwdWStart p rois 0 pw, ⟨le_refl _, ?_⟩, ⟨le_refl _, ?_⟩, ⟨le_refl _, ?_⟩, rfl⟩
    · exact hLn.2.2
    · exact hHn.2.2
    · exact hWn.2.2
  have hne : ¬ fwdIsEmpty p rois (outN p (outIndex p 0 c pl ph pw))
      (outPL p (outIndex p 0 c pl ph pw)) (outPH p (outIndex p 0 c pl ph pw))
      (outPW p (outIndex p 0 c pl ph pw)) := by
    rw [dN, dPL, dPH, dPW]
    exact hneRaw
  have hx : ∃ x ∈ fwdBox p rois (outN p (outIndex p 0 c pl ph pw))
      (outPL p (outIndex p 0 c pl ph pw)) (outPH p (outIndex p 0 c pl ph pw))
      (outPW p (outIndex p 0 c pl ph pw)),
      -fltMax < bd (dataOffset p rois (outN p (outIndex p 0 c pl ph pw))
        (outC p (outIndex p 0 c pl ph pw)) + x) := by
    rw [dN, dPL, dPH, dPW, dC]
    exact hxRaw
  obtain ⟨l, h, w, hl, hh, hw, hres⟩ :=
    forward_nonempty_result p bd rois (outIndex p 0 c pl ph pw) hne hx
  rw [dN, dPL] at hl
  rw [dN, dPH] at hh
  rw [dN, dPW] at hw
  refine ⟨l, h, w, hl, hh, hw, ?_⟩
  rw [hres]

/-- If the selection index of bin (pl, ph, pw) equals the flat encoding of
an in volume coordinate, then that bin lies in the backward candidate range
of the coordinate on every axis. -/
theorem c2_bin_match (p : Params) (bd : ℤ → ℚ) (rois : ℕ → ℚ)
    (hinvW : roi_start_w p rois 0 ≤ roi_end_w p rois 0)
    (hinvH : roi_start_h p rois 0 ≤ roi_end_h p rois 0)
    (hinvL : roi_start_l p rois 0 ≤ roi_end_l p rois 0)
    (hbW : 0 ≤ roi_start_w p rois 0 ∧ roi_end_w p rois 0 < p.width)
    (hbH : 0 ≤ roi_start_h p rois 0 ∧ roi_end_h p rois 0 < p.height)
    (hbL : 0 ≤ roi_start_l p rois 0 ∧ roi_end_l p rois 0 < p.length)
    (hdata : ∀ i : ℤ, -fltMax < bd i)
    (c : ℕ) (hc : c < p.channels) (l h w : ℤ)
    (hhv : 0 ≤ h ∧ h < p.height) (hwv : 0 ≤ w ∧ w < p.width)
    (pl ph pw : ℤ)
    (hpl2 : 0 ≤ pl ∧ pl < p.pooled_length) (hph2 : 0 ≤ ph ∧ ph < p.pooled_height)
    (hpw2 : 0 ≤ pw ∧ pw < p.pooled_width)
    (hm : (ROIPoolForward p bd rois (poolOffset p 0 c + poolEnc p pl ph pw).toNat).2 =
      encode3 p.height p.width l h w) :
    (bwdPLStart p rois 0 l ≤ pl ∧ pl < bwdPLEnd p rois 0 l) ∧
      (bwdPHStart p rois 0 h ≤ ph ∧ ph < bwdPHEnd p rois 0 h) ∧
      (bwdPWStart p rois 0 w ≤ pw ∧ pw < bwdPWEnd p rois 0 w) := by
  obtain ⟨npl, hnpl⟩ : ∃ n : ℕ, (n : ℤ) = pl := ⟨pl.toNat, by omega⟩
  obtain ⟨nph, hnph⟩ : ∃ n : ℕ, (n : ℤ) = ph := ⟨ph.toNat, by omega⟩
  obtain ⟨npw, hnpw⟩ : ∃ n : ℕ, (n : ℤ) = pw := ⟨pw.toNat, by omega⟩
  subst hnpl hnph hnpw
  rw [poolIndex_eq_outIndex, Int.toNat_natCast] at hm
  obtain ⟨lq, hq, wq, bl, bh, bw, ham⟩ := c2_argmax_spec p bd rois hinvW hinvH hinvL
    hbW hbH hbL hdata c npl nph npw hc (by omega) (by omega) (by omega)
  have heq : encode3 p.height p.width l h w = encode3 p.height p.width lq hq wq :=
    hm.symm.trans ham
  have hqv : (0 ≤ hq ∧ hq < p.height) := by
    have bh2 := bh
    unfold fwdHStart fwdHEnd at bh2
    exact axis_vol_bounds bh2.1 bh2.2
  have wqv : (0 ≤ wq ∧ wq < p.width) := by
    have bw2 := bw
    unfold fwdWStart fwdWEnd at bw2
    exact axis_vol_bounds bw2.1 bw2.2
  obtain ⟨el, eh, ew⟩ := encode3_inj hhv.1 hhv.2 hwv.1 hwv.2 hqv.1 hqv.2 wqv.1 wqv.2 heq
  subst el
  subst eh
  subst ew
  unfold fwdLStart fwdLEnd bin_size_l at bl
  unfold fwdHStart fwdHEnd bin_size_h at bh
  unfold fwdWStart fwdWEnd bin_size_w at bw
  refine ⟨?_, ?_, ?_⟩
  · unfold bwdPLStart bwdPLEnd bin_size_l
    exact axis_bin_range _ _ p.length p.pooled_length npl l (by omega) bl.1 bl.2
  · unfold bwdPHStart bwdPHEnd bin_size_h
    exact axis_bin_range _ _ p.height p.pooled_height nph h (by omega) bh.1 bh.2
  · unfold bwdPWStart bwdPWEnd bin_size_w
    exact axis_bin_range _ _ p.width p.pooled_width npw w (by omega) bw.1 bw.2

/-- Indicator used in the adjoint computation: the coordinate (l, h, w) is
inside region 0 and bin (pl, ph, pw) of channel c recorded its flat encoding
as argmax. -/
def adjInd (p : Params) (bd : ℤ → ℚ) (rois : ℕ → ℚ) (c : ℕ) (l h w pl ph pw : ℤ) : ℚ :=
  if inRoi p rois 0 w h l ∧
      (ROIPoolForward p bd rois (poolOffset p 0 c + poolEnc p pl ph pw).toNat).2 =
        encode3 p.height p.width l h w
  then 1 else 0

theorem Ico_clamp_subset (a b : ℤ) (m : ℕ) :
    Finset.Ico (clampI a 0 m) (clampI b 0 m) ⊆ Finset.Ico (0 : ℤ) (m : ℤ) := by
  intro x hx
  rw [Finset.mem_Ico] at hx
  rw [Finset.mem_Ico]
  unfold clampI at hx
  omega

/-- The per region contribution of region 0 with all ones output gradient
and the selection index produced by the forward pass, written as a sum of
the adjoint indicator over the full bin grid. -/
theorem c2_contrib_eq (p : Params) (bd : ℤ → ℚ) (rois : ℕ → ℚ)
    (hinvW : roi_start_w p rois 0 ≤ roi_end_w p rois 0)
    (hinvH : roi_start_h p rois 0 ≤ roi_end_h p rois 0)
    (hinvL : roi_start_l p rois 0 ≤ roi_end_l p rois 0)
    (hbW : 0 ≤ roi_start_w p rois 0 ∧ roi_end_w p rois 0 < p.width)
    (hbH : 0 ≤ roi_start_h p rois 0 ∧ roi_end_h p rois 0 < p.height)
    (hbL : 0 ≤ roi_start_l p rois 0 ∧ roi_end_l p rois 0 < p.length)
    (hdata : ∀ i : ℤ, -fltMax < bd i)
    (n c l h w : ℕ) (hc : c < p.channels) :
    roiContrib p (fun _ => 1) (fun i => (ROIPoolForward p bd rois i.toNat).2) rois
        n c l h w 0 =
      if (n : ℤ) = roi_batch_ind rois 0 then
        ∑ pl ∈ Finset.range p.pooled_length, ∑ ph ∈ Finset.range p.pooled_height,
          ∑ pw ∈ Finset.range p.pooled_width,
            adjInd p bd rois c (l : ℤ) (h : ℤ) (w : ℤ) (pl : ℤ) (ph : ℤ) (pw : ℤ)
      else 0 := by
  unfold roiContrib
  by_cases hb : (n : ℤ) ≠ roi_batch_ind rois 0
  · rw [if_pos hb, if_neg hb]
  · have hbe : (n : ℤ) = roi_batch_ind rois 0 := not_ne_iff.mp hb
    rw [if_neg hb, if_pos hbe]
    by_cases hri : ¬ inRoi p rois 0 (w : ℤ) (h : ℤ) (l : ℤ)
    · rw [if_pos hri]
      symm
      apply Finset.sum_eq_zero
      intro pl _
      apply Finset.sum_eq_zero
      intro ph _
      apply Finset.sum_eq_zero
      intro pw _
      unfold adjInd
      rw [if_neg]
      rintro ⟨h1, -⟩
      exact hri h1
    · rw [if_neg hri]
      have hriY : inRoi p rois 0 (w : ℤ) (h : ℤ) (l : ℤ) := not_not.mp hri
      have hind : ∀ pl ph pw : ℤ,
          (if (fun i => (ROIPoolForward p bd rois i.toNat).2)
              (poolOffset p 0 c + poolEnc p pl ph pw) =
              encode3 p.height p.width (l : ℤ) (h : ℤ) (w : ℤ)
            then (fun _ : ℤ => (1 : ℚ)) (poolOffset p 0 c + poolEnc p pl ph pw) else 0) =
            adjInd p bd rois c (l : ℤ) (h : ℤ) (w : ℤ) pl ph pw := by
        intro pl ph pw
        unfold adjInd
        by_cases he : (ROIPoolForward p bd rois
            (poolOffset p 0 c + poolEnc p pl ph pw).toNat).2 =
            encode3 p.height p.width (l : ℤ) (h : ℤ) (w : ℤ)
        · simp [he, hriY]
        · simp [he]
      simp only [hind]
      -- zero off the candidate ranges
      have hzero : ∀ pl ph pw : ℤ, 0 ≤ pl → pl < p.pooled_length → 0 ≤ ph →
          ph < p.pooled_height → 0 ≤ pw → pw < p.pooled_width →
          (pl ∉ Finset.Ico (bwdPLStart p rois 0 (l : ℤ)) (bwdPLEnd p rois 0 (l : ℤ)) ∨
            ph ∉ Finset.Ico (bwdPHStart p rois 0 (h : ℤ)) (bwdPHEnd p rois 0 (h : ℤ)) ∨
            pw ∉ Finset.Ico (bwdPWStart p rois 0 (w : ℤ)) (bwdPWEnd p rois 0 (w : ℤ))) →
          adjInd p bd rois c (l : ℤ) (h : ℤ) (w : ℤ) pl ph pw = 0 := by
        intro pl ph pw h1 h2 h3 h4 h5 h6 hout
        unfold adjInd
        rw [if_neg]
        rintro ⟨hin, hmm⟩
        obtain ⟨hhv, hwv⟩ : ((0 : ℤ) ≤ h ∧ (h : ℤ) < p.height) ∧
            ((0 : ℤ) ≤ w ∧ (w : ℤ) < p.width) := by
          unfold inRoi at hin
          constructor
          · constructor
            · exact le_trans hbH.1 hin.2.2.1
            · exact lt_of_le_of_lt hin.2.2.2.1 hbH.2
          · constructor
            · exact le_trans hbW.1 hin.1
            · exact lt_of_le_of_lt hin.2.1 hbW.2
        obtain ⟨cl, ch, cw⟩ := c2_bin_match p bd rois hinvW hinvH hinvL hbW hbH hbL hdata
          c hc (l : ℤ) (h : ℤ) (w : ℤ) hhv hwv pl ph pw ⟨h1, h2⟩ ⟨h3, h4⟩ ⟨h5, h6⟩ hmm
        rcases hout with ho | ho | ho
        · exact ho (Finset.mem_Ico.mpr ⟨cl.1, cl.2⟩)
        · exact ho (Finset.mem_Ico.mpr ⟨ch.1, ch.2⟩)
        · exact ho (Finset.mem_Ico.mpr ⟨cw.1, cw.2⟩)
      have hsubL : Finset.Ico (bwdPLStart p rois 0 (l : ℤ)) (bwdPLEnd p rois 0 (l : ℤ)) ⊆
          Finset.Ico (0 : ℤ) (p.pooled_length : ℤ) := by
        unfold bwdPLStart bwdPLEnd
        exact Ico_clamp_subset _ _ _
      have hsubH : Finset.Ico (bwdPHStart p rois 0 (h : ℤ)) (bwdPHEnd p rois 0 (h : ℤ)) ⊆
          Finset.Ico (0 : ℤ) (p.pooled_height : ℤ) := by
        unfold bwdPHStart bwdPHEnd
        exact Ico_clamp_subset _ _ _
      have hsubW : Finset.Ico (bwdPWStart p rois 0 (w : ℤ)) (bwdPWEnd p rois 0 (w : ℤ)) ⊆
          Finset.Ico (0 : ℤ) (p.pooled_width : ℤ) := by
        unfold bwdPWStart bwdPWEnd
        exact Ico_clamp_subset _ _ _
      have e2 : ∀ pl : ℤ, 0 ≤ pl → pl < p.pooled_length →
          (∑ ph ∈ Finset.Ico (bwdPHStart p rois 0 (h : ℤ)) (bwdPHEnd p rois 0 (h : ℤ)),
            ∑ pw ∈ Finset.Ico (bwdPWStart p rois 0 (w : ℤ)) (bwdPWEnd p rois 0 (w : ℤ)),
              adjInd p bd rois c (l : ℤ) (h : ℤ) (w : ℤ) pl ph pw) =
            ∑ ph ∈ Finset.Ico (0 : ℤ) (p.pooled_height : ℤ),
              ∑ pw ∈ Finset.Ico (0 : ℤ) (p.pooled_width : ℤ),
                adjInd p bd rois c (l : ℤ) (h : ℤ) (w : ℤ) pl ph pw := by
        intro pl h1 h2
        refine (Finset.sum_subset hsubH ?_).trans (Finset.sum_congr rfl ?_)
        · intro ph hph hnph
          apply Finset.sum_eq_zero
          intro pw hpw
          have hpwm := hsubW hpw
          rw [Finset.mem_Ico] at hph hpwm
          exact hzero pl ph pw h1 h2 hph.1 hph.2 hpwm.1 hpwm.2 (Or.inr (Or.inl hnph))
        · intro ph hph
          rw [Finset.mem_Ico] at hph
          apply Finset.sum_subset hsubW
          intro pw hpw hnpw
          rw [Finset.mem_Ico] at hpw
          exact hzero pl ph pw h1 h2 hph.1 hph.2 hpw.1 hpw.2 (Or.inr (Or.inr hnpw))
      have e1 : (∑ pl ∈ Finset.Ico (bwdPLStart p rois 0 (l : ℤ)) (bwdPLEnd p rois 0 (l : ℤ)),
          ∑ ph ∈ Finset.Ico (bwdPHStart p rois 0 (h : ℤ)) (bwdPHEnd p rois 0 (h : ℤ)),
            ∑ pw ∈ Finset.Ico (bwdPWStart p rois 0 (w : ℤ)) (bwdPWEnd p rois 0 (w : ℤ)),
              adjInd p bd rois c (l : ℤ) (h : ℤ) (w : ℤ) pl ph pw) =
          ∑ pl ∈ Finset.Ico (0 : ℤ) (p.pooled_length : ℤ),
            ∑ ph ∈ Finset.Ico (bwdPHStart p rois 0 (h : ℤ)) (bwdPHEnd p rois 0 (h : ℤ)),
              ∑ pw ∈ Finset.Ico (bwdPWStart p rois 0 (w : ℤ)) (bwdPWEnd p rois 0 (w : ℤ)),
                adjInd p bd rois c (l : ℤ) (h : ℤ) (w : ℤ) pl ph pw := by
        apply Finset.sum_subset hsubL
        intro pl hpl hnpl
        apply Finset.sum_eq_zero
        intro ph hph
        apply Finset.sum_eq_zero
        intro pw hpw
        have hphm := hsubH hph
        have hpwm := hsubW hpw
        rw [Finset.mem_Ico] at hpl hphm hpwm
        exact hzero pl ph pw hpl.1 hpl.2 hphm.1 hphm.2 hpwm.1 hpwm.2 (Or.inl hnpl)
      have e3 : (∑ pl ∈ Finset.Ico (0 : ℤ) (p.pooled_length : ℤ),
          ∑ ph ∈ Finset.Ico (bwdPHStart p rois 0 (h : ℤ)) (bwdPHEnd p rois 0 (h : ℤ)),
            ∑ pw ∈ Finset.Ico (bwdPWStart p rois 0 (w : ℤ)) (bwdPWEnd p rois 0 (w : ℤ)),
              adjInd p bd rois c (l : ℤ) (h : ℤ) (w : ℤ) pl ph pw) =
          ∑ pl ∈ Finset.Ico (0 : ℤ) (p.pooled_length : ℤ),
            ∑ ph ∈ Finset.Ico (0 : ℤ) (p.pooled_height : ℤ),
              ∑ pw ∈ Finset.Ico (0 : ℤ) (p.pooled_width : ℤ),
                adjInd p bd rois c (l : ℤ) (h : ℤ) (w : ℤ) pl ph pw := by
        apply Finset.sum_congr rfl
        intro pl hpl
        rw [Finset.mem_Ico] at hpl
        exact e2 pl hpl.1 hpl.2
      rw [e1, e3]
      simp only [sum_Ico_zero_nat]

/-- Each (channel, bin) pair contributes exactly one unit of gradient, at
exactly one input coordinate: its recorded argmax. -/
theorem c2_coord_sum_one (p : Params) (bd : ℤ → ℚ) (rois : ℕ → ℚ)
    (hinvW : roi_start_w p rois 0 ≤ roi_end_w p rois 0)
    (hinvH : roi_start_h p rois 0 ≤ roi_end_h p rois 0)
    (hinvL : roi_start_l p rois 0 ≤ roi_end_l p rois 0)
    (hbW : 0 ≤ roi_start_w p rois 0 ∧ roi_end_w p rois 0 < p.width)
    (hbH : 0 ≤ roi_start_h p rois 0 ∧ roi_end_h p rois 0 < p.height)
    (hbL : 0 ≤ roi_start_l p rois 0 ∧ roi_end_l p rois 0 < p.length)
    (hdata : ∀ i : ℤ, -fltMax < bd i)
    (c pl ph pw : ℕ) (hc : c < p.channels) (hplb : pl < p.pooled_length)
    (hphb : ph < p.pooled_height) (hpwb : pw < p.pooled_width) :
    (∑ l ∈ Finset.range p.length, ∑ h ∈ Finset.range p.height,
      ∑ w ∈ Finset.range p.width,
        adjInd p bd rois c (l : ℤ) (h : ℤ) (w : ℤ) (pl : ℤ) (ph : ℤ) (pw : ℤ)) = 1 := by
  obtain ⟨lq, hq, wq, bl, bh, bw, ham⟩ := c2_argmax_spec p bd rois hinvW hinvH hinvL
    hbW hbH hbL hdata c pl ph pw hc hplb hphb hpwb
  have ham2 : (ROIPoolForward p bd rois
      (poolOffset p 0 c + poolEnc p (pl : ℤ) (ph : ℤ) (pw : ℤ)).toNat).2 =
      encode3 p.height p.width lq hq wq := by
    rw [poolIndex_eq_outIndex, Int.toNat_natCast]
    exact ham
  have blv : 0 ≤ lq ∧ lq < p.length := by
    have b2 := bl
    unfold fwdLStart fwdLEnd at b2
    exact axis_vol_bounds b2.1 b2.2
  have bhv : 0 ≤ hq ∧ hq < p.height := by
    have b2 := bh
    unfold fwdHStart fwdHEnd at b2
    exact axis_vol_bounds b2.1 b2.2
  have bwv : 0 ≤ wq ∧ wq < p.width := by
    have b2 := bw
    unfold fwdWStart fwdWEnd at b2
    exact axis_vol_bounds b2.1 b2.2
  have hin : inRoi p rois 0 wq hq lq := by
    have b2 := bl
    unfold fwdLStart fwdLEnd bin_size_l at b2
    have b3 := bh
    unfold fwdHStart fwdHEnd bin_size_h at b3
    have b4 := bw
    unfold fwdWStart fwdWEnd bin_size_w at b4
    have cL := axis_containment _ _ p.length p.pooled_length pl lq hplb hinvL b2.1 b2.2
    have cH := axis_containment _ _ p.height p.pooled_height ph hq hphb hinvH b3.1 b3.2
    have cW := axis_containment _ _ p.width p.pooled_width pw wq hpwb hinvW b4.1 b4.2
    exact ⟨cW.1, cW.2, cH.1, cH.2, cL.1, cL.2⟩
  have hkey : ∀ l h w : ℤ, 0 ≤ h → h < p.height → 0 ≤ w → w < p.width →
      ¬(l = lq ∧ h = hq ∧ w = wq) →
      adjInd p bd rois c l h w (pl : ℤ) (ph : ℤ) (pw : ℤ) = 0 := by
    intro l h w h1 h2 h3 h4 hne
    unfold adjInd
    rw [if_neg]
    rintro ⟨-, hmm⟩
    exact hne (encode3_inj h1 h2 h3 h4 bhv.1 bhv.2 bwv.1 bwv.2 (hmm.symm.trans ham2))
  have hclq : ((lq.toNat : ℕ) : ℤ) = lq := Int.toNat_of_nonneg blv.1
  have hchq : ((hq.toNat : ℕ) : ℤ) = hq := Int.toNat_of_nonneg bhv.1
  have hcwq : ((wq.toNat : ℕ) : ℤ) = wq := Int.toNat_of_nonneg bwv.1
  calc (∑ l ∈ Finset.range p.length, ∑ h ∈ Finset.range p.height,
        ∑ w ∈ Finset.range p.width,
          adjInd p bd rois c (l : ℤ) (h : ℤ) (w : ℤ) (pl : ℤ) (ph : ℤ) (pw : ℤ))
      = ∑ h ∈ Finset.range p.height, ∑ w ∈ Finset.range p.width,
          adjInd p bd rois c ((lq.toNat : ℕ) : ℤ) (h : ℤ) (w : ℤ) (pl : ℤ) (ph : ℤ) (pw : ℤ) := by
        apply Finset.sum_eq_single_of_mem lq.toNat (Finset.mem_range.mpr (by omega))
        intro b hb hbne
        apply Finset.sum_eq_zero
        intro h2 hh2
        apply Finset.sum_eq_zero
        intro w2 hw2
        rw [Finset.mem_range] at hh2 hw2
        apply hkey _ _ _ (by omega) (by omega) (by omega) (by omega)
        rintro ⟨e1, -, -⟩
        omega
    _ = ∑ w ∈ Finset.range p.width,
          adjInd p bd rois c ((lq.toNat : ℕ) : ℤ) ((hq.toNat : ℕ) : ℤ) (w : ℤ)
            (pl : ℤ) (ph : ℤ) (pw : ℤ) := by
        apply Finset.sum_eq_single_of_mem hq.toNat (Finset.mem_range.mpr (by omega))
        intro b hb hbne
        apply Finset.sum_eq_zero
        intro w2 hw2
        rw [Finset.mem_range] at hb hw2
        apply hkey _ _ _ (by omega) (by omega) (by omega) (by omega)
        rintro ⟨-, e1, -⟩
        omega
    _ = adjInd p bd rois c ((lq.toNat : ℕ) : ℤ) ((hq.toNat : ℕ) : ℤ) ((wq.toNat : ℕ) : ℤ)
          (pl : ℤ) (ph : ℤ) (pw : ℤ) := by
        apply Finset.sum_eq_single_of_mem wq.toNat (Finset.mem_range.mpr (by omega))
        intro b hb hbne
        rw [Finset.mem_range] at hb
        apply hkey _ _ _ (by omega) (by omega) (by omega) (by omega)
        rintro ⟨-, -, e1⟩
        omega
    _ = 1 := by
        rw [hclq, hchq, hcwq]
        unfold adjInd
        rw [if_pos ⟨hin, ham2⟩]

theorem sum_swap_13 (s t1 t2 t3 : Finset ℕ) (g : ℕ → ℕ → ℕ → ℕ → ℚ) :
    (∑ x ∈ s, ∑ a ∈ t1, ∑ b ∈ t2, ∑ c ∈ t3, g x a b c) =
      ∑ a ∈ t1, ∑ b ∈ t2, ∑ c ∈ t3, ∑ x ∈ s, g x a b c := by
  rw [Finset.sum_comm]
  apply Finset.sum_congr rfl
  intro a _
  rw [Finset.sum_comm]
  apply Finset.sum_congr rfl
  intro b _
  rw [Finset.sum_comm]

theorem sum_comm_triple_triple (sL sH sW sPL sPH sPW : Finset ℕ)
    (f : ℕ → ℕ → ℕ → ℕ → ℕ → ℕ → ℚ) :
    (∑ l ∈ sL, ∑ h ∈ sH, ∑ w ∈ sW, ∑ pl ∈ sPL, ∑ ph ∈ sPH, ∑ pw ∈ sPW, f l h w pl ph pw) =
      ∑ pl ∈ sPL, ∑ ph ∈ sPH, ∑ pw ∈ sPW, ∑ l ∈ sL, ∑ h ∈ sH, ∑ w ∈ sW, f l h w pl ph pw := by
  calc (∑ l ∈ sL, ∑ h ∈ sH, ∑ w ∈ sW, ∑ pl ∈ sPL, ∑ ph ∈ sPH, ∑ pw ∈ sPW, f l h w pl ph pw)
      = ∑ l ∈ sL, ∑ h ∈ sH, ∑ pl ∈ sPL, ∑ ph ∈ sPH, ∑ pw ∈ sPW, ∑ w ∈ sW,
          f l h w pl ph pw := by
        apply Finset.sum_congr rfl
        intro l _
        apply Finset.sum_congr rfl
        intro h _
        exact sum_swap_13 sW sPL sPH sPW (fun w pl ph pw => f l h w pl ph pw)
    _ = ∑ l ∈ sL, ∑ pl ∈ sPL, ∑ ph ∈ sPH, ∑ pw ∈ sPW, ∑ h ∈ sH, ∑ w ∈ sW,
          f l h w pl ph pw := by
        apply Finset.sum_congr rfl
        intro l _
        exact sum_swap_13 sH sPL sPH sPW (fun h pl ph pw => ∑ w ∈ sW, f l h w pl ph pw)
    _ = ∑ pl ∈ sPL, ∑ ph ∈ sPH, ∑ pw ∈ sPW, ∑ l ∈ sL, ∑ h ∈ sH, ∑ w ∈ sW,
          f l h w pl ph pw :=
        sum_swap_13 sL sPL sPH sPW (fun l pl ph pw => ∑ h ∈ sH, ∑ w ∈ sW, f l h w pl ph pw)

/-- C2 (amended): for a single region whose scaled, rounded boundaries are
non inverted and lie inside the volume, whose batch index names a valid
batch slot, and for feature values above -FLT_MAX, running Forward and then
Backward with an all ones output gradient produces an input gradient whose
sum over the region's support equals the number of pooled bins
(channels times pooled volume): each bin contributes exactly one unit of
gradient at its recorded argmax. -/
theorem c2_adjoint_amended (p : Params) (bd : ℤ → ℚ) (rois : ℕ → ℚ) (N : ℕ)
    (hb0 : 0 ≤ roi_batch_ind rois 0) (hbN : roi_batch_ind rois 0 < N)
    (hinvW : roi_start_w p rois 0 ≤ roi_end_w p rois 0)
    (hinvH : roi_start_h p rois 0 ≤ roi_end_h p rois 0)
    (hinvL : roi_start_l p rois 0 ≤ roi_end_l p rois 0)
    (hbW : 0 ≤ roi_start_w p rois 0 ∧ roi_end_w p rois 0 < p.width)
    (hbH : 0 ≤ roi_start_h p rois 0 ∧ roi_end_h p rois 0 < p.height)
    (hbL : 0 ≤ roi_start_l p rois 0 ∧ roi_end_l p rois 0 < p.length)
    (hdata : ∀ i : ℤ, -fltMax < bd i) :
    (∑ index ∈ (Finset.range (N * p.channels * p.length * p.height * p.width)).filter
        (supportPred p rois 0),
      ROIPoolBackward p (fun _ => 1) (fun i => (ROIPoolForward p bd rois i.toNat).2)
        1 rois index) =
      ((p.channels * (p.pooled_length * p.pooled_height * p.pooled_width) : ℕ) : ℚ) := by
  have hsupp : ∀ x ∈ Finset.range (N * p.channels * p.length * p.height * p.width),
      ROIPoolBackward p (fun _ => 1) (fun i => (ROIPoolForward p bd rois i.toNat).2)
        1 rois x ≠ 0 → supportPred p rois 0 x := by
    intro x _ hx
    rw [backward_eq_sum, Finset.sum_range_one] at hx
    unfold roiContrib at hx
    by_cases hb : (inN p x : ℤ) ≠ roi_batch_ind rois 0
    · rw [if_pos hb] at hx
      exact absurd rfl hx
    · by_cases hr : ¬ inRoi p rois 0 (inW p x) (inH p x) (inL p x)
      · rw [if_neg hb, if_pos hr] at hx
        exact absurd rfl hx
      · exact ⟨not_ne_iff.mp hb, not_not.mp hr⟩
  rw [Finset.sum_filter_of_ne hsupp]
  rw [sum_range_mul (N * p.channels * p.length * p.height) p.width,
    sum_range_mul (N * p.channels * p.length) p.height,
    sum_range_mul (N * p.channels) p.length,
    sum_range_mul N p.channels]
  have hbody : (∑ n ∈ Finset.range N, ∑ c ∈ Finset.range p.channels,
      ∑ l ∈ Finset.range p.length, ∑ h ∈ Finset.range p.height,
        ∑ w ∈ Finset.range p.width,
          ROIPoolBackward p (fun _ => 1) (fun i => (ROIPoolForward p bd rois i.toNat).2)
            1 rois ((((n * p.channels + c) * p.length + l) * p.height + h) * p.width + w)) =
      ∑ n ∈ Finset.range N, ∑ c ∈ Finset.range p.channels,
        ∑ l ∈ Finset.range p.length, ∑ h ∈ Finset.range p.height,
          ∑ w ∈ Finset.range p.width,
            if (n : ℤ) = roi_batch_ind rois 0 then
              ∑ pl ∈ Finset.range p.pooled_length, ∑ ph ∈ Finset.range p.pooled_height,
                ∑ pw ∈ Finset.range p.pooled_width,
                  adjInd p bd rois c (l : ℤ) (h : ℤ) (w : ℤ) (pl : ℤ) (ph : ℤ) (pw : ℤ)
            else 0 := by
    apply Finset.sum_congr rfl
    intro n _
    apply Finset.sum_congr rfl
    intro c hcm
    apply Finset.sum_congr rfl
    intro l hlm
    apply Finset.sum_congr rfl
    intro h hhm
    apply Finset.sum_congr rfl
    intro w hwm
    rw [Finset.mem_range] at hcm hlm hhm hwm
    have hdec := inIndex_decode p n c l h w hcm hlm hhm hwm
    calc ROIPoolBackward p (fun _ => 1) (fun i => (ROIPoolForward p bd rois i.toNat).2)
          1 rois ((((n * p.channels + c) * p.length + l) * p.height + h) * p.width + w)
        = roiContrib p (fun _ => 1) (fun i => (ROIPoolForward p bd rois i.toNat).2) rois
            n c l h w 0 := by
          show ROIPoolBackward p (fun _ => 1)
              (fun i => (ROIPoolForward p bd rois i.toNat).2) 1 rois
              (inIndex p n c l h w) = _
          rw [backward_eq_sum, Finset.sum_range_one, hdec.1, hdec.2.1, hdec.2.2.1,
            hdec.2.2.2.1, hdec.2.2.2.2]
      _ = _ := c2_contrib_eq p bd rois hinvW hinvH hinvL hbW hbH hbL hdata n c l h w hcm
  rw [hbody]
  have hcast : (((roi_batch_ind rois 0).toNat : ℕ) : ℤ) = roi_batch_ind rois 0 :=
    Int.toNat_of_nonneg hb0
  have hpick : (∑ n ∈ Finset.range N, ∑ c ∈ Finset.range p.channels,
      ∑ l ∈ Finset.range p.length, ∑ h ∈ Finset.range p.height,
        ∑ w ∈ Finset.range p.width,
          if (n : ℤ) = roi_batch_ind rois 0 then
            ∑ pl ∈ Finset.range p.pooled_length, ∑ ph ∈ Finset.range p.pooled_height,
              ∑ pw ∈ Finset.range p.pooled_width,
                adjInd p bd rois c (l : ℤ) (h : ℤ) (w : ℤ) (pl : ℤ) (ph : ℤ) (pw : ℤ)
          else 0) =
      ∑ c ∈ Finset.range p.channels, ∑ l ∈ Finset.range p.length,
        ∑ h ∈ Finset.range p.height, ∑ w ∈ Finset.range p.width,
          ∑ pl ∈ Finset.range p.pooled_length, ∑ ph ∈ Finset.range p.pooled_height,
            ∑ pw ∈ Finset.range p.pooled_width,
              adjInd p bd rois c (l : ℤ) (h : ℤ) (w : ℤ) (pl : ℤ) (ph : ℤ) (pw : ℤ) := by
    rw [Finset.sum_eq_single_of_mem (roi_batch_ind rois 0).toNat
      (Finset.mem_range.mpr (by omega))]
    · simp only [hcast, eq_self_iff_true, if_true]
    · intro x _ hxe
      apply Finset.sum_eq_zero
      intro c _
      apply Finset.sum_eq_zero
      intro l _
      apply Finset.sum_eq_zero
      intro h _
      apply Finset.sum_eq_zero
      intro w _
      rw [if_neg]
      intro hxb
      exact hxe (by omega)
  rw [hpick]
  have hfin : ∀ c ∈ Finset.range p.channels,
      (∑ l ∈ Finset.range p.length, ∑ h ∈ Finset.range p.height,
        ∑ w ∈ Finset.range p.width,
          ∑ pl ∈ Finset.range p.pooled_length, ∑ ph ∈ Finset.range p.pooled_height,
            ∑ pw ∈ Finset.range p.pooled_width,
              adjInd p bd rois c (l : ℤ) (h : ℤ) (w : ℤ) (pl : ℤ) (ph : ℤ) (pw : ℤ)) =
        ((p.pooled_length * p.pooled_height * p.pooled_width : ℕ) : ℚ) := by
    intro c hcm
    rw [Finset.mem_range] at hcm
    rw [sum_comm_triple_triple]
    calc (∑ pl ∈ Finset.range p.pooled_length, ∑ ph ∈ Finset.range p.pooled_height,
        ∑ pw ∈ Finset.range p.pooled_width,
          ∑ l ∈ Finset.range p.length, ∑ h ∈ Finset.range p.height,
            ∑ w ∈ Finset.range p.width,
              adjInd p bd rois c (l : ℤ) (h : ℤ) (w : ℤ) (pl : ℤ) (ph : ℤ) (pw : ℤ))
        = ∑ pl ∈ Finset.range p.pooled_length, ∑ ph ∈ Finset.range p.pooled_height,
            ∑ pw ∈ Finset.range p.pooled_width, (1 : ℚ) := by
          apply Finset.sum_congr rfl
          intro pl hplm
          apply Finset.sum_congr rfl
          intro ph hphm
          apply Finset.sum_congr rfl
          intro pw hpwm
          rw [Finset.mem_range] at hplm hphm hpwm
          exact c2_coord_sum_one p bd rois hinvW hinvH hinvL hbW hbH hbL hdata
            c pl ph pw hcm hplm hphm hpwm
      _ = ((p.pooled_length * p.pooled_height * p.pooled_width : ℕ) : ℚ) := by
          simp [Finset.sum_const, Finset.card_range, nsmul_eq_mul]
          push_cast
          ring
  calc (∑ c ∈ Finset.range p.channels, ∑ l ∈ Finset.range p.length,
      ∑ h ∈ Finset.range p.height, ∑ w ∈ Finset.range p.width,
        ∑ pl ∈ Finset.range p.pooled_length, ∑ ph ∈ Finset.range p.pooled_height,
          ∑ pw ∈ Finset.range p.pooled_width,
            adjInd p bd rois c (l : ℤ) (h : ℤ) (w : ℤ) (pl : ℤ) (ph : ℤ) (pw : ℤ))
      = ∑ c ∈ Finset.range p.channels,
          ((p.pooled_length * p.pooled_height * p.pooled_width : ℕ) : ℚ) :=
        Finset.sum_congr rfl hfin
    _ = ((p.channels * (p.pooled_length * p.pooled_height * p.pooled_width) : ℕ) : ℚ) := by
        simp [Finset.sum_const, Finset.card_range, nsmul_eq_mul]

/-- A 1 batch, 1 channel, 1x1x1 volume pooled to a single bin, unit scales. -/
def pOut : Params := ⟨1, 1, 1, 1, 1, 1, 1, 1, 1⟩

/-- One region [batch 0, x 5..5, y 5..5, z 5..5] entirely outside the 1x1x1 volume. -/
def roisOutC2 : ℕ → ℚ := fun i => if i = 0 then 0 else 5

/-- One region [batch 0, x 0..0, y 0..0, z 0..0] covering the 1x1x1 volume. -/
def roisZero : ℕ → ℚ := fun _ => 0

/-- C2 counterexample: a single region lying entirely outside the volume: all
its bins are empty, Forward stores selection index -1 everywhere, Backward
accumulates nothing, and the sum of the input gradient over the region's
support is 0, not the number of pooled bins (1), so the claim is false as
stated. -/
theorem c2_counterexample :
    (∑ index ∈ (Finset.range
        (1 * pOut.channels * pOut.length * pOut.height * pOut.width)).filter
        (supportPred pOut roisOutC2 0),
      ROIPoolBackward pOut (fun _ => 1)
        (fun i => (ROIPoolForward pOut bdZero roisOutC2 i.toNat).2) 1 roisOutC2 index) = 0 ∧
      ((pOut.channels * (pOut.pooled_length * pOut.pooled_height * pOut.pooled_width) : ℕ) : ℚ)
        = 1 ∧
      (0 : ℚ) ≠ 1 := by
  refine ⟨?_, by norm_num [pOut], by norm_num⟩
  apply Finset.sum_eq_zero
  intro i hi
  have hi0 : i < 1 := by
    have hm := (Finset.mem_filter.mp hi).1
    rw [Finset.mem_range] at hm
    simpa [pOut] using hm
  have hi1 : i = 0 := by omega
  subst hi1
  norm_num [ROIPoolBackward, pOut, roisOutC2, inN, inC, inL, inH, inW, inRoi,
    roi_batch_ind, truncC, roi_start_w, roi_start_h, roi_start_l, roi_end_w, roi_end_h,
    roi_end_l, roundC, List.range_succ]

theorem c2_adjoint_witness :
    (0 ≤ roi_batch_ind roisZero 0 ∧ roi_batch_ind roisZero 0 < ((1 : ℕ) : ℤ) ∧
        roi_start_w pOut roisZero 0 ≤ roi_end_w pOut roisZero 0 ∧
        roi_start_h pOut roisZero 0 ≤ roi_end_h pOut roisZero 0 ∧
        roi_start_l pOut roisZero 0 ≤ roi_end_l pOut roisZero 0 ∧
        (0 ≤ roi_start_w pOut roisZero 0 ∧ roi_end_w pOut roisZero 0 < pOut.width) ∧
        (0 ≤ roi_start_h pOut roisZero 0 ∧ roi_end_h pOut roisZero 0 < pOut.height) ∧
        (0 ≤ roi_start_l pOut roisZero 0 ∧ roi_end_l pOut roisZero 0 < pOut.length) ∧
        (∀ i : ℤ, -fltMax < bdZero i)) ∧
      (∑ index ∈ (Finset.range
          (1 * pOut.channels * pOut.length * pOut.height * pOut.width)).filter
          (supportPred pOut roisZero 0),
        ROIPoolBackward pOut (fun _ => 1)
          (fun i => (ROIPoolForward pOut bdZero roisZero i.toNat).2) 1 roisZero index) =
        ((pOut.channels * (pOut.pooled_length * pOut.pooled_height * pOut.pooled_width) : ℕ) : ℚ) := by
  have h1 : 0 ≤ roi_batch_ind roisZero 0 := by norm_num [roi_batch_ind, truncC, roisZero]
  have h2 : roi_batch_ind roisZero 0 < ((1 : ℕ) : ℤ) := by
    norm_num [roi_batch_ind, truncC, roisZero]
  have h3 : roi_start_w pOut roisZero 0 ≤ roi_end_w pOut roisZero 0 := by
    norm_num [roi_start_w, roi_end_w, roisZero, roundC, pOut]
  have h4 : roi_start_h pOut roisZero 0 ≤ roi_end_h pOut roisZero 0 := by
    norm_num [roi_start_h, roi_end_h, roisZero, roundC, pOut]
  have h5 : roi_start_l pOut roisZero 0 ≤ roi_end_l pOut roisZero 0 := by
    norm_num [roi_start_l, roi_end_l, roisZero, roundC, pOut]
  have h6 : 0 ≤ roi_start_w pOut roisZero 0 ∧ roi_end_w pOut roisZero 0 < pOut.width := by
    norm_num [roi_start_w, roi_end_w, roisZero, roundC, pOut]
  have h7 : 0 ≤ roi_start_h pOut roisZero 0 ∧ roi_end_h pOut roisZero 0 < pOut.height := by
    norm_num [roi_start_h, roi_end_h, roisZero, roundC, pOut]
  have h8 : 0 ≤ roi_start_l pOut roisZero 0 ∧ roi_end_l pOut roisZero 0 < pOut.length := by
    norm_num [roi_start_l, roi_end_l, roisZero, roundC, pOut]
  have h9 : ∀ i : ℤ, -fltMax < bdZero i := by
    intro i
    norm_num [bdZero, fltMax]
  exact ⟨⟨h1, h2, h3, h4, h5, h6, h7, h8, h9⟩,
    c2_adjoint_amended pOut bdZero roisZero 1 h1 h2 h3 h4 h5 h6 h7 h8 h9⟩

end RoiPool
